import Mathlib

/-!
Verification development for the rclone-filter-editor core
(`src/unnamed/part_000`, second file segment): the glob-pattern matcher
(`matchesRclonePattern` / `rclonePatternToRegex`), the two filter-resolution
policies (`getEffectiveFilter`, `Model.getEffectiveFilterWithMap`), the rule
file loader/serializer (`loadFilterFile`, `saveFilterFile`,
`shouldInsertBefore`, `getPatternDirectory`), the statistics pass
(`calculateStats`), and the Space-key toggle edit of `Model.Update`.

Go strings are modelled as `List Char`.  Go's `map[string]FilterState` is
modelled as an association list `List (Str × FilterState)`; the order of the
list stands for the (unspecified) iteration order of the Go map, so theorems
quantifying over the list cover every iteration order.  Go's `regexp`
package (an external collaborator: the generated expressions are built from
literal characters, character classes, `[^/]`, `[^/]*`, `.*`, `(?:...)`,
`(?:...|...)` and `(?:.*/)?` only) is modelled by a small regular-expression
AST with standard semantics, matched with Brzozowski derivatives; `.`
matches any character except a newline, as in RE2, and the only source of a
compilation error is an invalid character class (empty class or reversed
range), which is what `regexp.Compile` rejects among the expressions this
program can generate.  Escape sequences inside a copied-through character
class are not interpreted (the class items are taken literally).
-/

/-- Slice of a Go string, modelled as a list of characters. -/
abbrev Str := List Char

/-- Coerce a Lean string literal to the `Str` model. -/
def str (s : String) : Str := s.toList

/-- Go `strings.HasPrefix`. -/
def hasPrefixStr (s pre : Str) : Bool := pre.isPrefixOf s

/-- Go `strings.HasSuffix`. -/
def hasSuffixStr (s suf : Str) : Bool := suf.isSuffixOf s

/-- Go `strings.TrimPrefix`: remove `pre` once from the front when present. -/
def trimPrefixStr (s pre : Str) : Str :=
  if hasPrefixStr s pre then s.drop pre.length else s

/-- Go `strings.TrimSuffix`: remove `suf` once from the end when present. -/
def trimSuffixStr (s suf : Str) : Str :=
  if hasSuffixStr s suf then s.take (s.length - suf.length) else s

/-- Whitespace test used by Go `strings.TrimSpace` (ASCII cases). -/
def isSpaceChar (c : Char) : Bool := c.isWhitespace

/-- Go `strings.TrimSpace`. -/
def trimSpaceStr (s : Str) : Str :=
  ((s.dropWhile isSpaceChar).reverse.dropWhile isSpaceChar).reverse

/-- Go `strings.Contains` with a single-character needle. -/
def containsCharStr (s : Str) (c : Char) : Bool := s.contains c

/-- Go `strings.Contains` with a string needle: `needle` occurs as a
contiguous substring of `s`. -/
def containsStr (s needle : Str) : Bool :=
  (List.range (s.length + 1)).any (fun i => needle.isPrefixOf (s.drop i))

/-- Go `strings.Split` on a one-character separator. -/
def splitOnCharStr (sep : Char) : Str → List Str
  | [] => [[]]
  | c :: rest =>
    if c = sep then [] :: splitOnCharStr sep rest
    else
      match splitOnCharStr sep rest with
      | [] => [[c]]
      | s :: ss => (c :: s) :: ss

/-- The `FilterState` enum of the program (`FilterNone` is `iota` 0). -/
inductive FilterState where
  | FilterNone
  | FilterInclude
  | FilterExclude
deriving DecidableEq, Repr, Inhabited

export FilterState (FilterNone FilterInclude FilterExclude)

/-- One item of a regular-expression character class: a literal or a range. -/
inductive ClassItem where
  | single (c : Char)
  | range (lo hi : Char)
deriving DecidableEq, Repr

/-- Does character `c` fall in class item `it`? -/
def itemMatches (it : ClassItem) (c : Char) : Bool :=
  match it with
  | .single a => c = a
  | .range lo hi => lo ≤ c && c ≤ hi

/-- Regular-expression AST modelling the fragment of Go `regexp` syntax
generated by `rclonePatternToRegex`: `emp` never matches, `eps` matches the
empty string, `cls neg items` matches one character (negated class when
`neg`), plus concatenation, alternation and Kleene star. -/
inductive Regex where
  | emp
  | eps
  | cls (neg : Bool) (items : List ClassItem)
  | seq (a b : Regex)
  | alt (a b : Regex)
  | star (a : Regex)
deriving DecidableEq, Repr

/-- Does the single character `c` match the class `cls neg items`? -/
def classMatches (neg : Bool) (items : List ClassItem) (c : Char) : Bool :=
  (items.any (fun it => itemMatches it c)) != neg

/-- Nullability: does the regex accept the empty string? -/
def Regex.nullable : Regex → Bool
  | .emp => false
  | .eps => true
  | .cls _ _ => false
  | .seq a b => a.nullable && b.nullable
  | .alt a b => a.nullable || b.nullable
  | .star _ => true

/-- Brzozowski derivative of a regex by one character. -/
def Regex.deriv : Regex → Char → Regex
  | .emp, _ => .emp
  | .eps, _ => .emp
  | .cls neg items, c => if classMatches neg items c then .eps else .emp
  | .seq a b, c =>
    if a.nullable then .alt (.seq (a.deriv c) b) (b.deriv c)
    else .seq (a.deriv c) b
  | .alt a b, c => .alt (a.deriv c) (b.deriv c)
  | .star a, c => .seq (a.deriv c) (.star a)

/-- Anchored (whole-string) regex matching, as `regexp.MatchString` on the
program's `"^" ++ regex ++ "$"` expressions. -/
def Regex.rmatch (r : Regex) (s : Str) : Bool :=
  (s.foldl Regex.deriv r).nullable

/-- The regex `.` of RE2: any character except a newline. -/
def anyCharRe : Regex := .cls true [.single (Char.ofNat 10)]

/-- The regex `[^/]` emitted for `?`. -/
def notSlashRe : Regex := .cls true [.single '/']

/-- The regex `[^/]*` emitted for `*`. -/
def starNotSlashRe : Regex := .star notSlashRe

/-- The regex `.*` emitted for `**`. -/
def dotStarRe : Regex := .star anyCharRe

/-- The regex `(?:.*/)?` emitted for `**/`. -/
def optDirsRe : Regex := .alt .eps (.seq dotStarRe (.cls false [.single '/']))

/-- Parse the items of a character class body (which contains no `]`): ranges
`a-b` (rejected when reversed, as RE2 does), literal characters, and a
leading or trailing `-` taken literally.  Escape sequences are modelled as
literal characters. -/
def parseClassItems : Str → Option (List ClassItem)
  | [] => some []
  | a :: '-' :: b :: rest =>
    if a ≤ b then (parseClassItems rest).map (fun l => ClassItem.range a b :: l)
    else none
  | a :: rest => (parseClassItems rest).map (fun l => ClassItem.single a :: l)

/-- Parse a whole character class body, handling the leading `^` negation;
the empty class `[]` and the bare negation `[^]` are invalid, as in RE2. -/
def parseClass : Str → Option Regex
  | [] => none
  | '^' :: rest =>
    if rest = [] then none
    else (parseClassItems rest).map (fun items => Regex.cls true items)
  | body => (parseClassItems body).map (fun items => Regex.cls false items)

/-- Index of the closing brace matching an already-open brace (level starts
at 1), mirroring the `braceLevel` scan of `rclonePatternToRegex`. -/
def findCloseBrace : Str → Nat → Option Nat
  | [], _ => none
  | c :: rest, lvl =>
    if c = '}' then
      if lvl = 1 then some 0
      else (findCloseBrace rest (lvl - 1)).map (fun k => k + 1)
    else if c = '{' then (findCloseBrace rest (lvl + 1)).map (fun k => k + 1)
    else (findCloseBrace rest lvl).map (fun k => k + 1)

theorem findCloseBrace_lt {s : Str} {lvl k : Nat}
    (h : findCloseBrace s lvl = some k) : k < s.length := by
  induction s generalizing lvl k with
  | nil => simp [findCloseBrace] at h
  | cons c rest ih =>
    unfold findCloseBrace at h
    split at h
    · split at h
      · cases h; simp
      · rcases Option.map_eq_some'.1 h with ⟨k', hk', rfl⟩
        have := ih hk'; simpa [Nat.succ_lt_succ_iff] using this
    · split at h
      · rcases Option.map_eq_some'.1 h with ⟨k', hk', rfl⟩
        have := ih hk'; simpa [Nat.succ_lt_succ_iff] using this
      · rcases Option.map_eq_some'.1 h with ⟨k', hk', rfl⟩
        have := ih hk'; simpa [Nat.succ_lt_succ_iff] using this

theorem splitOnCharStr_length_le (sep : Char) (s : Str) :
    ∀ p ∈ splitOnCharStr sep s, p.length ≤ s.length := by
  induction s with
  | nil => intro p hp; simp [splitOnCharStr] at hp; simp [hp]
  | cons c rest ih =>
    intro p hp
    unfold splitOnCharStr at hp
    split at hp
    · rcases List.mem_cons.1 hp with rfl | h
      · simp
      · exact Nat.le_succ_of_le (ih _ h)
    · revert hp
      split
      · intro hp
        rcases List.mem_cons.1 hp with rfl | h
        · simp
        · cases h
      · rename_i s' ss' heq
        intro hp
        rcases List.mem_cons.1 hp with rfl | h
        · have : s' ∈ splitOnCharStr sep rest := by rw [heq]; exact List.mem_cons_self _ _
          have := ih _ this
          simpa [Nat.succ_le_succ_iff] using this
        · have : p ∈ splitOnCharStr sep rest := by rw [heq]; exact List.mem_cons_of_mem _ h
          exact Nat.le_succ_of_le (ih _ this)


/-- Sum of the lengths of a list of strings. -/
def sumLen (l : List Str) : Nat := (l.map List.length).sum

theorem splitOnCharStr_sumLen (sep : Char) (s : Str) :
    sumLen (splitOnCharStr sep s) + (splitOnCharStr sep s).length ≤
      s.length + 1 := by
  induction s with
  | nil => simp [splitOnCharStr, sumLen]
  | cons c rest ih =>
    unfold splitOnCharStr
    split
    · simp only [sumLen, List.map_cons, List.sum_cons, List.length_cons,
        List.length_nil] at ih ⊢
      omega
    · rcases h : splitOnCharStr sep rest with _ | ⟨s', ss'⟩
      · simp [sumLen]
      · rw [h] at ih
        simp only [sumLen, List.map_cons, List.sum_cons, List.length_cons] at ih ⊢
        omega

/-- A single literal character as a regex. -/
def Regex.char (c : Char) : Regex := Regex.cls false [ClassItem.single c]

/-- Fold regex pieces into their concatenation. -/
def seqListRe (l : List Regex) : Regex := l.foldr Regex.seq Regex.eps

/-- Fold alternatives into the `(?:a|b|c)` alternation. -/
def altListRe : List Regex → Regex
  | [] => Regex.emp
  | [r] => r
  | r :: rs => Regex.alt r (altListRe rs)

mutual

/-- Translation of the `rclonePatternToRegex` loop from the source: walk the
pattern left to right and emit one regex piece per construct (`**/`, `**`,
`*`, `?`, character classes, brace alternations, escaped metacharacters,
literals).  It returns the list of pieces; `none` signals that
`regexp.Compile` would reject the generated expression (only an invalid
character class can cause that).  Brace alternations split their body on
every comma, as `strings.Split` does, and compile each alternative
recursively; an unterminated `[` or `{` is a literal.  The recursion is
bounded by a fuel argument so that the definition is structural and reduces
in the kernel; every recursive call strictly decreases the measure
`2 * length` (respectively `2 * (sumLen + length)` for the alternatives, see
`findCloseBrace_lt` and `splitOnCharStr_sumLen`), so any fuel above the
measure gives the same result (`compilePiecesF_stable`), and the fuel case
is never reached from `rclonePatternToRegex`. -/
def compilePiecesF : Nat → Str → Option (List Regex)
  | 0, _ => none
  | fuel + 1, pattern =>
    match pattern with
    | [] => some []
    | '*' :: '*' :: '/' :: rest =>
      (compilePiecesF fuel rest).map (fun l => optDirsRe :: l)
    | '*' :: '*' :: rest =>
      (compilePiecesF fuel rest).map (fun l => dotStarRe :: l)
    | '*' :: rest =>
      (compilePiecesF fuel rest).map (fun l => starNotSlashRe :: l)
    | '?' :: rest =>
      (compilePiecesF fuel rest).map (fun l => notSlashRe :: l)
    | '[' :: rest =>
      let body := rest.takeWhile (fun c => c ≠ ']')
      if body.length < rest.length then
        match parseClass body with
        | none => none
        | some re =>
          (compilePiecesF fuel (rest.drop (body.length + 1))).map
            (fun l => re :: l)
      else
        (compilePiecesF fuel rest).map (fun l => Regex.char '[' :: l)
    | '{' :: rest =>
      match findCloseBrace rest 1 with
      | some k =>
        match compileAlternativesF fuel (splitOnCharStr ',' (rest.take k)) with
        | none => none
        | some alts =>
          (compilePiecesF fuel (rest.drop (k + 1))).map
            (fun l => altListRe alts :: l)
      | none =>
        (compilePiecesF fuel rest).map (fun l => Regex.char '{' :: l)
    | c :: rest =>
      -- both the escaped metacharacters and plain characters denote
      -- themselves as regex literals
      (compilePiecesF fuel rest).map (fun l => Regex.char c :: l)

/-- Compile every comma-separated alternative of a brace group; each
alternative is concatenated from its own pieces. -/
def compileAlternativesF : Nat → List Str → Option (List Regex)
  | 0, _ => none
  | _ + 1, [] => some []
  | fuel + 1, p :: ps => do
    let r ← compilePiecesF fuel p
    let rs ← compileAlternativesF fuel ps
    pure (seqListRe r :: rs)

end

/-- Translation of `rclonePatternToRegex`: the concatenation of the emitted
pieces, or `none` when `regexp.Compile` would fail on the result. -/
def rclonePatternToRegex (pattern : Str) : Option Regex :=
  (compilePiecesF (2 * pattern.length + 1) pattern).map seqListRe

/-- Translation of `matchesRclonePattern` from the source: empty patterns
never match; a leading `/` is stripped from both pattern and path; a pattern
ending in `/**` additionally matches the bare directory prefix and anything
under it; otherwise the pattern is compiled to an anchored regex, falling
back to exact string equality when compilation fails. -/
def matchesRclonePattern (pattern path : Str) : Bool :=
  if pattern = [] then false
  else
    let cleanPattern := trimPrefixStr pattern (str "/")
    let cleanPath := trimPrefixStr path (str "/")
    let dirPattern := trimSuffixStr cleanPattern (str "/**")
    if hasSuffixStr cleanPattern (str "/**") &&
        (cleanPath == dirPattern || hasPrefixStr cleanPath (dirPattern ++ str "/")) then
      true
    else
      match rclonePatternToRegex cleanPattern with
      | some re => re.rmatch cleanPath
      | none => cleanPattern == cleanPath

example : matchesRclonePattern (str "dir/**") (str "dir") = true := by decide
example : matchesRclonePattern (str "dir/**") (str "dir/x") = true := by decide
example : matchesRclonePattern (str "dir/**") (str "dirX") = false := by decide
example : matchesRclonePattern (str "*.log") (str "keep.log") = true := by decide
example : matchesRclonePattern (str "*.log") (str "/keep.log") = true := by decide
example : matchesRclonePattern (str "keep.log") (str "other.log") = false := by decide
example : matchesRclonePattern (str "a/**/b") (str "a/b") = true := by decide
example : matchesRclonePattern (str "a/**/b") (str "a/x/b") = true := by decide
example : matchesRclonePattern (str "{*.txt,*.md}") (str "x.md") = true := by decide
example : matchesRclonePattern (str "[a-c]x") (str "bx") = true := by decide
example : matchesRclonePattern (str "[c-a]x") (str "[c-a]x") = true := by decide
example : matchesRclonePattern (str "a?c") (str "abc") = true := by decide
example : matchesRclonePattern (str "a?c") (str "a/c") = false := by decide

/-- A rule of the ordered rule list: `(Pattern, State)`. -/
structure FilterRule where
  Pattern : Str
  State : FilterState
deriving DecidableEq, Repr

/-- The match test applied to each rule by both resolution policies:
pattern equals the path, or the compiled matcher accepts the path. -/
def ruleHits (pattern path : Str) : Bool :=
  pattern == path || matchesRclonePattern pattern path

/-- Translation of `getEffectiveFilter` (the Ordered policy): scan the rules
in file order and return the state of the first rule whose pattern equals
the path or whose matcher accepts it; `FilterNone` when no rule matches. -/
def getEffectiveFilter (path : Str) : List FilterRule → FilterState
  | [] => FilterNone
  | rule :: rest =>
    if ruleHits rule.Pattern path then rule.State
    else getEffectiveFilter path rest

/-- The `filterMap` scan of `Model.getEffectiveFilterWithMap`: fold over the
map entries keeping the first entry seen whose pattern is strictly longer
than the best so far, among entries that equal or match the path.  The
association list order models the Go map iteration order. -/
def overlayBest (path : Str) (m : List (Str × FilterState)) :
    Option (Str × FilterState) :=
  m.foldl
    (fun best e =>
      if ruleHits e.1 path then
        match best with
        | none => some e
        | some b => if e.1.length > b.1.length then some e else best
      else best)
    none

/-- The fallback scan of `Model.getEffectiveFilterWithMap`: first original
rule that equals or matches the path and whose pattern is not a key of the
map; rules whose pattern is a map key are skipped (superseded). -/
def fallbackFilter (m : List (Str × FilterState)) (path : Str) :
    List FilterRule → FilterState
  | [] => FilterNone
  | rule :: rest =>
    if ruleHits rule.Pattern path then
      if (m.lookup rule.Pattern).isSome then fallbackFilter m path rest
      else rule.State
    else fallbackFilter m path rest

/-- Translation of `Model.getEffectiveFilterWithMap`: prefer the longest
matching `filterMap` entry; otherwise fall back to the first matching
original rule not superseded by the map; otherwise `FilterNone`. -/
def getEffectiveFilterWithMap (m : List (Str × FilterState))
    (filterRules : List FilterRule) (path : Str) : FilterState :=
  match overlayBest path m with
  | some b => b.2
  | none => fallbackFilter m path filterRules

example :
    getEffectiveFilter (str "/keep.log")
      [⟨str "*.log", FilterExclude⟩, ⟨str "keep.log", FilterInclude⟩] =
      FilterExclude := by decide

example :
    getEffectiveFilterWithMap
      [(str "*.log", FilterExclude), (str "important.log", FilterInclude)]
      [] (str "/important.log") = FilterInclude := by decide

example :
    getEffectiveFilterWithMap
      [(str "important.log", FilterInclude), (str "*.log", FilterExclude)]
      [] (str "/important.log") = FilterInclude := by decide

/-- Go map assignment `m[k] = v` on the association-list model: overwrite
the entry when the key is present, otherwise append a fresh entry. -/
def mapInsert (m : List (Str × FilterState)) (k : Str) (v : FilterState) :
    List (Str × FilterState) :=
  match m with
  | [] => [(k, v)]
  | (a, b) :: rest =>
    if a = k then (k, v) :: rest else (a, b) :: mapInsert rest k v

/-- Go `delete(m, k)` on the association-list model. -/
def mapErase (m : List (Str × FilterState)) (k : Str) :
    List (Str × FilterState) :=
  m.filter (fun e => e.1 ≠ k)

/-- One line of `loadFilterFile`'s scanner loop: trim the line, skip blanks
and `#` comments, parse `+ `/`- ` directives into a rule and a map entry,
silently skip anything else. -/
def loadLine (acc : List FilterRule × List (Str × FilterState)) (line : Str) :
    List FilterRule × List (Str × FilterState) :=
  let l := trimSpaceStr line
  if l = [] || hasPrefixStr l (str "#") then acc
  else if hasPrefixStr l (str "+ ") then
    let path := trimPrefixStr l (str "+ ")
    (acc.1 ++ [⟨path, FilterInclude⟩], mapInsert acc.2 path FilterInclude)
  else if hasPrefixStr l (str "- ") then
    let path := trimPrefixStr l (str "- ")
    (acc.1 ++ [⟨path, FilterExclude⟩], mapInsert acc.2 path FilterExclude)
  else acc

/-- Translation of `loadFilterFile`.  The file's contents are passed as an
optional list of lines: `none` models `os.Open` failing (missing or
unreadable file), in which case the function returns the empty rule list
and empty map without aborting, exactly as the early `return` does. -/
def loadFilterFile (contents : Option (List Str)) :
    List FilterRule × List (Str × FilterState) :=
  match contents with
  | none => ([], [])
  | some lines => lines.foldl loadLine ([], [])

/-- Translation of `getPatternDirectory`: strip a leading `/`; for patterns
ending in `/**` return the part before the suffix; otherwise the first
`/`-separated segment (Go `strings.Split` always returns at least one
part). -/
def getPatternDirectory (pattern : Str) : Str :=
  let p := trimPrefixStr pattern (str "/")
  if hasSuffixStr p (str "/**") then trimSuffixStr p (str "/**")
  else
    match splitOnCharStr '/' p with
    | [] => []
    | part :: _ => part

/-- Translation of `shouldInsertBefore`: anything goes before the catch-all
`*`; within the same directory prefix, longer or slash-containing new
patterns go first; a new pattern whose directory refines the existing one
goes first. -/
def shouldInsertBefore (newPattern existingPattern : Str) : Bool :=
  if existingPattern = str "*" then true
  else
    let newDir := getPatternDirectory newPattern
    let existingDir := getPatternDirectory existingPattern
    if newDir = existingDir then
      decide (newPattern.length > existingPattern.length) ||
        (containsCharStr newPattern '/' &&
          !containsStr existingPattern (str "/**"))
    else if existingDir ≠ [] && hasPrefixStr newDir existingDir then true
    else false

/-- The line emitted for one pattern by `saveFilterFile`'s `switch`:
`+ pattern` for Include, `- pattern` for Exclude, nothing for `FilterNone`
(no `case` arm matches). -/
def emitLines (pattern : Str) (state : FilterState) : List Str :=
  match state with
  | FilterInclude => [str "+ " ++ pattern]
  | FilterExclude => [str "- " ++ pattern]
  | FilterNone => []

/-- The inner `for newPath, newState := range newRules` loop of
`saveFilterFile`: emit every not-yet-written new rule that should be
inserted before the next original rule, marking it written (also when its
state is `FilterNone` and nothing is printed, as the Go code does).
Returns the emitted lines and the grown written set. -/
def insertNewRules (nextPattern : Str) :
    List (Str × FilterState) → List Str → List Str × List Str
  | [], written => ([], written)
  | (p, s) :: rest, written =>
    if !written.contains p && shouldInsertBefore p nextPattern then
      let tail := insertNewRules nextPattern rest (p :: written)
      (emitLines p s ++ tail.1, tail.2)
    else insertNewRules nextPattern rest written

/-- The body of one main-loop iteration before the insertion step: when the
rule's pattern still has a map entry, emit it with the map's current state
(nothing for `FilterNone`) and mark the pattern written. -/
def saveStep (m : List (Str × FilterState)) (rule : FilterRule)
    (written : List Str) : List Str × List Str :=
  match m.lookup rule.Pattern with
  | some s => (emitLines rule.Pattern s, rule.Pattern :: written)
  | none => ([], written)

/-- The `if i+1 < len(filterRules)` insertion step: when a next original
rule exists, insert the eligible new rules before it. -/
def saveIns (newRules : List (Str × FilterState))
    (rest : List FilterRule) (written : List Str) : List Str × List Str :=
  match rest with
  | [] => ([], written)
  | next :: _ => insertNewRules next.Pattern newRules written

/-- The main `for i, rule := range filterRules` loop of `saveFilterFile`:
emit each original rule that still has a map entry (with the map's current
state), then, when a next rule exists, insert eligible new rules before it.
Returns the emitted lines and the final written set. -/
def saveLoop (m : List (Str × FilterState))
    (newRules : List (Str × FilterState)) :
    List FilterRule → List Str → List Str × List Str
  | [], written => ([], written)
  | rule :: rest, written =>
    let step := saveStep m rule written
    let ins := saveIns newRules rest step.2
    let tail := saveLoop m newRules rest ins.2
    (step.1 ++ ins.1 ++ tail.1, tail.2)

/-- The trailing loop of `saveFilterFile`: emit every new rule not yet
written (without marking, as the Go code does not). -/
def writeRemaining (written : List Str) :
    List (Str × FilterState) → List Str
  | [] => []
  | (p, s) :: rest =>
    if !written.contains p then emitLines p s ++ writeRemaining written rest
    else writeRemaining written rest

/-- Translation of `saveFilterFile`, as the pure list of lines it writes:
collect the map entries whose pattern is not an original rule (`newRules`,
in map iteration order), run the main loop over the original rules, then
append the remaining unwritten new rules. -/
def saveFilterFile (filterRules : List FilterRule)
    (m : List (Str × FilterState)) : List Str :=
  let newRules :=
    m.filter (fun e => !(filterRules.any (fun r => r.Pattern == e.1)))
  let main := saveLoop m newRules filterRules []
  main.1 ++ writeRemaining main.2 newRules

/-- Two's-complement wraparound of Go `int64` arithmetic. -/
def wrap64 (x : Int) : Int := (x + 2 ^ 63) % 2 ^ 64 - 2 ^ 63

/-- Go `int64` addition (`totalSize += size`). -/
def addInt64 (a b : Int) : Int := wrap64 (a + b)

/-- The fields of `FileNode` that `calculateStats` reads or writes: the
directory flag, the file size, the children, and the cached aggregates.
Sizes are `int64` values, modelled as `Int` with explicit wraparound on
every addition; `TotalFiles` is a count and is modelled as `Nat`. -/
inductive FileNode where
  | mk (IsDir : Bool) (Size : Int) (Children : List FileNode)
      (TotalSize : Int) (TotalFiles : Nat)
deriving Repr

def FileNode.IsDir : FileNode → Bool
  | .mk d _ _ _ _ => d

def FileNode.Size : FileNode → Int
  | .mk _ s _ _ _ => s

def FileNode.Children : FileNode → List FileNode
  | .mk _ _ c _ _ => c

def FileNode.TotalSize : FileNode → Int
  | .mk _ _ _ t _ => t

def FileNode.TotalFiles : FileNode → Nat
  | .mk _ _ _ _ f => f

mutual

/-- Translation of `calculateStats`: a file contributes its own size and a
count of one, without touching its fields; a directory sums the
contributions of its (recursively updated) children, stores them in
`TotalSize`/`TotalFiles`, and returns them.  The Go in-place mutation is
modelled by returning the updated node alongside the returned pair. -/
def calculateStats : FileNode → FileNode × Int × Nat
  | FileNode.mk isDir size children ts tf =>
    if isDir then
      let res := calcChildren children
      (FileNode.mk isDir size res.1 res.2.1 res.2.2, res.2.1, res.2.2)
    else (FileNode.mk isDir size children ts tf, size, 1)

/-- The `for _, child := range node.Children` loop of `calculateStats`. -/
def calcChildren : List FileNode → List FileNode × Int × Nat
  | [] => ([], 0, 0)
  | child :: rest =>
    let r := calculateStats child
    let rs := calcChildren rest
    (r.1 :: rs.1, addInt64 r.2.1 rs.2.1, r.2.2 + rs.2.2)

end

mutual

/-- The number of file nodes among a node's descendants (the node itself
counts when it is a file). -/
def countFiles : FileNode → Nat
  | FileNode.mk isDir _ children _ _ =>
    if isDir then countFilesList children else 1

def countFilesList : List FileNode → Nat
  | [] => 0
  | child :: rest => countFiles child + countFilesList rest

end

/-- The int64 contribution of one child to its parent directory's
`TotalSize`: a file child contributes its `Size`, a directory child its own
`TotalSize`. -/
def childContribution (c : FileNode) : Int :=
  if c.IsDir then c.TotalSize else c.Size

/-- Go int64 sum of the children's contributions, accumulated in children
order as the `totalSize += size` loop does. -/
def sumContributions (children : List FileNode) : Int :=
  match children with
  | [] => 0
  | c :: rest => addInt64 (childContribution c) (sumContributions rest)

mutual

/-- The aggregate invariant of claim C8, over a whole tree: every directory
node's `TotalSize` is the (int64) sum of its children's contributions and
its `TotalFiles` is the number of file nodes among its descendants. -/
def statsOk : FileNode → Prop
  | FileNode.mk isDir _ children ts tf =>
    if isDir then
      ts = sumContributions children ∧ tf = countFilesList children ∧
        statsOkList children
    else True

def statsOkList : List FileNode → Prop
  | [] => True
  | child :: rest => statsOk child ∧ statsOkList rest

end

/-- The `(node.Filter + 1) % 3` toggle cycle of the Space key handler. -/
def toggleCycle : FilterState → FilterState
  | FilterNone => FilterInclude
  | FilterInclude => FilterExclude
  | FilterExclude => FilterNone

/-- The Overlay key written by the Space key handler of `Model.Update`: the
node's root-relative path (as produced by `getFilterPath`, starting with
`/`), with `/**` appended after trimming a trailing `/` for directories,
and the leading `/` finally trimmed. -/
def toggleKey (relPath : Str) (isDir : Bool) : Str :=
  let fp :=
    if isDir then trimSuffixStr relPath (str "/") ++ str "/**" else relPath
  trimPrefixStr fp (str "/")

/-- Translation of the Space key branch of `Model.Update` acting on
`m.filterMap`: cycle the node's filter, write the key with the new state,
and delete the key again when the new state is `FilterNone`.  Returns the
updated map and the new filter state. -/
def toggleUpdate (m : List (Str × FilterState)) (relPath : Str)
    (isDir : Bool) (oldState : FilterState) :
    List (Str × FilterState) × FilterState :=
  let newState := toggleCycle oldState
  let key := toggleKey relPath isDir
  let m1 := mapInsert m key newState
  ((if newState = FilterNone then mapErase m1 key else m1), newState)

theorem beq_eq_false_of_ne {a b : Str} (h : a ≠ b) : (a == b) = false := by
  simpa [beq_iff_eq] using h

theorem lookup_cons_eq (a : Str) (v : FilterState)
    (m : List (Str × FilterState)) : ((a, v) :: m).lookup a = some v := by
  simp [List.lookup]

theorem lookup_cons_ne (a q : Str) (v : FilterState)
    (m : List (Str × FilterState)) (h : q ≠ a) :
    ((a, v) :: m).lookup q = m.lookup q := by
  simp [List.lookup, beq_eq_false_of_ne h]

theorem lookup_mapInsert_self (m : List (Str × FilterState)) (k : Str)
    (v : FilterState) : (mapInsert m k v).lookup k = some v := by
  induction m with
  | nil => simp [mapInsert, List.lookup]
  | cons e rest ih =>
    obtain ⟨a, b⟩ := e
    by_cases h : a = k
    · simp [mapInsert, h, lookup_cons_eq]
    · simp only [mapInsert, h, if_false]
      rw [lookup_cons_ne _ _ _ _ (fun hk => h hk.symm)]
      exact ih

theorem lookup_mapInsert_ne (m : List (Str × FilterState)) (k q : Str)
    (v : FilterState) (h : q ≠ k) :
    (mapInsert m k v).lookup q = m.lookup q := by
  induction m with
  | nil => simp [mapInsert, List.lookup, beq_eq_false_of_ne h]
  | cons e rest ih =>
    obtain ⟨a, b⟩ := e
    by_cases ha : a = k
    · subst ha
      have hm : mapInsert ((a, b) :: rest) a v = (a, v) :: rest := by
        simp [mapInsert]
      rw [hm, lookup_cons_ne _ _ _ _ h, lookup_cons_ne _ _ _ _ h]
    · simp only [mapInsert, ha, if_false]
      by_cases hq : q = a
      · subst hq
        rw [lookup_cons_eq, lookup_cons_eq]
      · rw [lookup_cons_ne _ _ _ _ hq, lookup_cons_ne _ _ _ _ hq]
        exact ih

theorem mapErase_cons_eq (a : Str) (v : FilterState)
    (m : List (Str × FilterState)) : mapErase ((a, v) :: m) a = mapErase m a := by
  simp [mapErase, List.filter]

theorem mapErase_cons_ne (a k : Str) (v : FilterState)
    (m : List (Str × FilterState)) (h : a ≠ k) :
    mapErase ((a, v) :: m) k = (a, v) :: mapErase m k := by
  simp [mapErase, List.filter, h]

theorem lookup_mapErase_self (m : List (Str × FilterState)) (k : Str) :
    (mapErase m k).lookup k = none := by
  induction m with
  | nil => simp [mapErase, List.lookup]
  | cons e rest ih =>
    obtain ⟨a, b⟩ := e
    by_cases h : a = k
    · subst h
      rw [mapErase_cons_eq]
      exact ih
    · rw [mapErase_cons_ne _ _ _ _ h, lookup_cons_ne _ _ _ _ (fun hk => h hk.symm)]
      exact ih

theorem lookup_mapErase_ne (m : List (Str × FilterState)) (k q : Str)
    (h : q ≠ k) : (mapErase m k).lookup q = m.lookup q := by
  induction m with
  | nil => simp [mapErase]
  | cons e rest ih =>
    obtain ⟨a, b⟩ := e
    by_cases ha : a = k
    · subst ha
      rw [mapErase_cons_eq, lookup_cons_ne _ _ _ _ h]
      exact ih
    · rw [mapErase_cons_ne _ _ _ _ ha]
      by_cases hq : q = a
      · subst hq
        rw [lookup_cons_eq, lookup_cons_eq]
      · rw [lookup_cons_ne _ _ _ _ hq, lookup_cons_ne _ _ _ _ hq]
        exact ih

/-- On open failure the loader returns the empty rule list and empty map. -/
theorem loadFilterFile_none : loadFilterFile none = ([], []) := rfl

mutual

theorem calculateStats_spec (t : FileNode) :
    (calculateStats t).1.IsDir = t.IsDir ∧
      (calculateStats t).2.1 = childContribution (calculateStats t).1 ∧
      (calculateStats t).2.2 = countFiles (calculateStats t).1 ∧
      statsOk (calculateStats t).1 := by
  cases t with
  | mk isDir size children ts tf =>
    cases isDir with
    | false =>
      simp [calculateStats, childContribution, countFiles, statsOk,
        FileNode.IsDir, FileNode.Size]
    | true =>
      have hc := calcChildren_spec children
      refine ⟨rfl, rfl, ?_, ?_⟩
      · show (calcChildren children).2.2 = countFilesList (calcChildren children).1
        exact hc.2.1
      · show (calcChildren children).2.1 = sumContributions (calcChildren children).1 ∧
          (calcChildren children).2.2 = countFilesList (calcChildren children).1 ∧
          statsOkList (calcChildren children).1
        exact ⟨hc.1, hc.2.1, hc.2.2⟩

theorem calcChildren_spec (ts : List FileNode) :
    (calcChildren ts).2.1 = sumContributions (calcChildren ts).1 ∧
      (calcChildren ts).2.2 = countFilesList (calcChildren ts).1 ∧
      statsOkList (calcChildren ts).1 := by
  cases ts with
  | nil => simp [calcChildren, sumContributions, countFilesList, statsOkList]
  | cons child rest =>
    have h1 := calculateStats_spec child
    have h2 := calcChildren_spec rest
    simp only [calcChildren, sumContributions, countFilesList, statsOkList]
    exact ⟨by rw [h1.2.1, h2.1], by rw [h1.2.2.1, h2.2.1], h1.2.2.2, h2.2.2⟩

end

/-- Claim C8: after the bottom-up recomputation pass `calculateStats` runs
on the root of any tree, every directory node of the resulting tree has
`TotalSize` equal to the (int64) sum over its children of the child's
`Size` for file children and the child's `TotalSize` for directory
children, and `TotalFiles` equal to the number of file nodes among all its
descendants, recursively up to the root.  (File nodes carry no children in
any tree the scanner produces, and `calculateStats` returns early for
them, so the invariant quantifies over directory nodes reachable through
directory children.) -/
theorem calculateStats_invariant_holds (t : FileNode) :
    statsOk (calculateStats t).1 :=
  (calculateStats_spec t).2.2.2

/-- Claim C9: when the rule file cannot be opened (modelled by `none`
contents), `loadFilterFile` returns a rule list with zero rules and an
empty pattern-to-state map instead of failing. -/
theorem load_open_failure_yields_empty :
    loadFilterFile none = ([], []) ∧ (loadFilterFile none).1.length = 0 :=
  ⟨rfl, rfl⟩

/-- Claim C1: the Ordered policy returns the state of the first rule in
file order whose pattern equals the path or whose matcher accepts the path
(`ruleHits`), returns `FilterNone` when no rule equals or matches, and in
particular resolves `/keep.log` to `FilterExclude` under
`[("*.log", Exclude), ("keep.log", Include)]`. -/
theorem ordered_policy_first_match_wins :
    (∀ (pre post : List FilterRule) (r : FilterRule) (path : Str),
        (∀ q ∈ pre, ruleHits q.Pattern path = false) →
        ruleHits r.Pattern path = true →
        getEffectiveFilter path (pre ++ r :: post) = r.State) ∧
    (∀ (rules : List FilterRule) (path : Str),
        (∀ q ∈ rules, ruleHits q.Pattern path = false) →
        getEffectiveFilter path rules = FilterNone) ∧
    getEffectiveFilter (str "/keep.log")
        [⟨str "*.log", FilterExclude⟩, ⟨str "keep.log", FilterInclude⟩] =
      FilterExclude := by
  refine ⟨?_, ?_, by decide⟩
  · intro pre post r path hpre hr
    induction pre with
    | nil => simp [getEffectiveFilter, hr]
    | cons q rest ih =>
      have hq : ruleHits q.Pattern path = false := hpre q (by simp)
      simp only [List.cons_append, getEffectiveFilter, hq, Bool.false_eq_true,
        if_false]
      exact ih fun q' hq' => hpre q' (by simp [hq'])
  · intro rules path h
    induction rules with
    | nil => rfl
    | cons q rest ih =>
      have hq : ruleHits q.Pattern path = false := h q (by simp)
      simp only [getEffectiveFilter, hq, Bool.false_eq_true, if_false]
      exact ih fun q' hq' => h q' (by simp [hq'])

/-- Witness for claim C1 at a concrete input: with one earlier non-matching
rule, the second rule's state is returned. -/
theorem ordered_policy_first_match_wins_witness :
    getEffectiveFilter (str "/b")
        ([⟨str "a", FilterExclude⟩] ++ ⟨str "b", FilterInclude⟩ :: []) =
      FilterInclude :=
  ordered_policy_first_match_wins.1 [⟨str "a", FilterExclude⟩] []
    ⟨str "b", FilterInclude⟩ (str "/b") (by decide) (by decide)

/-- Inserting one rule's pattern and state into the map. -/
def insertPair (m : List (Str × FilterState)) (r : FilterRule) :
    List (Str × FilterState) :=
  mapInsert m r.Pattern r.State

/-- The map obtained by inserting every rule of a list in order. -/
def rulesToMap (rules : List FilterRule) : List (Str × FilterState) :=
  rules.foldl insertPair []

/-- The rules contributed by a single line of the rule file. -/
def lineRules (line : Str) : List FilterRule :=
  let l := trimSpaceStr line
  if l = [] || hasPrefixStr l (str "#") then []
  else if hasPrefixStr l (str "+ ") then
    [⟨trimPrefixStr l (str "+ "), FilterInclude⟩]
  else if hasPrefixStr l (str "- ") then
    [⟨trimPrefixStr l (str "- "), FilterExclude⟩]
  else []

theorem loadLine_eq (acc : List FilterRule × List (Str × FilterState))
    (line : Str) :
    loadLine acc line =
      (acc.1 ++ lineRules line, (lineRules line).foldl insertPair acc.2) := by
  by_cases h1 : (decide (trimSpaceStr line = []) ||
      hasPrefixStr (trimSpaceStr line) (str "#")) = true
  · simp [loadLine, lineRules, h1]
  · by_cases h2 : hasPrefixStr (trimSpaceStr line) (str "+ ") = true
    · simp [loadLine, lineRules, h1, h2, insertPair]
    · by_cases h3 : hasPrefixStr (trimSpaceStr line) (str "- ") = true
      · simp [loadLine, lineRules, h1, h2, h3, insertPair]
      · simp [loadLine, lineRules, h1, h2, h3]

/-- All rules contributed by a list of lines. -/
def allRules (lines : List Str) : List FilterRule :=
  (lines.map lineRules).flatten

theorem load_foldl (lines : List Str) :
    ∀ (rs : List FilterRule) (m : List (Str × FilterState)),
      lines.foldl loadLine (rs, m) =
        (rs ++ allRules lines, (allRules lines).foldl insertPair m) := by
  induction lines with
  | nil => intro rs m; simp [allRules]
  | cons line rest ih =>
    intro rs m
    rw [List.foldl_cons, loadLine_eq]
    rw [ih]
    simp [allRules, List.foldl_append]

theorem mapInsert_ne_nil (m : List (Str × FilterState)) (k : Str)
    (v : FilterState) : mapInsert m k v ≠ [] := by
  cases m with
  | nil => simp [mapInsert]
  | cons e rest =>
    obtain ⟨a, b⟩ := e
    by_cases h : a = k <;> simp [mapInsert, h]

theorem foldl_insertPair_ne_nil (rules : List FilterRule) :
    ∀ m : List (Str × FilterState),
      m ≠ [] → rules.foldl insertPair m ≠ [] := by
  induction rules with
  | nil => intro m h; simpa using h
  | cons r rest ih =>
    intro m _
    rw [List.foldl_cons]
    exact ih _ (mapInsert_ne_nil _ _ _)

theorem rulesToMap_ne_nil (rules : List FilterRule) (h : rules ≠ []) :
    rulesToMap rules ≠ [] := by
  cases rules with
  | nil => cases h rfl
  | cons r rest =>
    show rest.foldl insertPair (insertPair [] r) ≠ []
    exact foldl_insertPair_ne_nil rest _ (mapInsert_ne_nil _ _ _)

/-- Counterexample to claim C4 as stated: loading the one-line file `+ a`
returns a map that already contains an entry, so the map returned by
`loadFilterFile` is not empty for every input file. -/
theorem overlay_after_load_not_empty :
    (loadFilterFile (some [str "+ a"])).2 =
        [(str "a", FilterInclude)] ∧
      (loadFilterFile (some [str "+ a"])).2 ≠ [] := by
  constructor
  · decide
  · decide

/-- Claim C4 amended: after loading any rule file, the map returned by
`loadFilterFile` is not empty but mirrors the loaded rules — it equals the
map obtained by inserting every loaded rule's (pattern, state) in order
(later duplicate patterns overwriting earlier ones), and in particular it
is empty exactly when the file yields no rules. -/
theorem overlay_after_load_mirrors_rules (contents : Option (List Str)) :
    (loadFilterFile contents).2 = rulesToMap (loadFilterFile contents).1 ∧
      ((loadFilterFile contents).2 = [] ↔ (loadFilterFile contents).1 = []) := by
  cases contents with
  | none => simp [loadFilterFile, rulesToMap]
  | some lines =>
    have h := load_foldl lines [] []
    simp only [loadFilterFile, h, List.nil_append]
    refine ⟨rfl, ?_⟩
    constructor
    · intro hm
      by_contra hr
      exact rulesToMap_ne_nil _ hr hm
    · intro hr
      simp [hr, rulesToMap]

theorem hasSuffixStr_append (a b : Str) : hasSuffixStr (a ++ b) b = true := by
  unfold hasSuffixStr
  rw [List.isSuffixOf_iff_suffix]
  exact List.suffix_append a b

theorem hasPrefixStr_append (a b : Str) : hasPrefixStr (a ++ b) a = true := by
  unfold hasPrefixStr
  rw [List.isPrefixOf_iff_prefix]
  exact List.prefix_append a b

theorem trimPrefixStr_slash_cons (c : Char) (rest : Str) :
    trimPrefixStr (c :: rest) (str "/") =
      if c = '/' then rest else c :: rest := by
  by_cases h : c = '/'
  · subst h
    simp [trimPrefixStr, hasPrefixStr, str, List.isPrefixOf]
  · have h2 : ¬('/' = c) := fun hc => h hc.symm
    simp [trimPrefixStr, hasPrefixStr, str, List.isPrefixOf, h, h2]

theorem trimPrefixStr_slash_append (relPath s : Str) (h : relPath ≠ []) :
    trimPrefixStr (relPath ++ s) (str "/") =
      trimPrefixStr relPath (str "/") ++ s := by
  cases relPath with
  | nil => cases h rfl
  | cons c rest =>
    rw [List.cons_append, trimPrefixStr_slash_cons, trimPrefixStr_slash_cons]
    by_cases hc : c = '/' <;> simp [hc]

/-- Counterexample to the final clause of claim C10 as stated: toggling a
file node whose root-relative path is `/a/**` (a file literally named `**`)
writes the Overlay key `a/**`, which does end in `/**`. -/
theorem toggle_file_key_can_end_in_globstar :
    (toggleUpdate [] (str "/a/**") false FilterNone).1 =
        [(str "a/**", FilterInclude)] ∧
      hasSuffixStr (toggleKey (str "/a/**") false) (str "/**") = true := by
  constructor
  · decide
  · decide

/-- Claim C10 amended: for every node whose root-relative path is nonempty
and has no trailing `/` (which is how `getFilterPath` produces it), the
Space-key toggle writes the Overlay key obtained from the path by removing
any leading `/` and, for directories, appending `/**`; the written state is
the cyclic successor of the node's old state; when that new state is
`FilterNone` exactly that key is deleted (all other keys are untouched),
otherwise exactly that key is set; a toggled directory's key always ends in
`/**`, while a file's key ends in `/**` only when the file's own relative
path already does. -/
theorem toggle_overlay_key_spec (m : List (Str × FilterState))
    (relPath : Str) (isDir : Bool) (oldState : FilterState)
    (h1 : relPath ≠ []) (h2 : hasSuffixStr relPath (str "/") = false) :
    toggleKey relPath isDir =
        (if isDir then trimPrefixStr relPath (str "/") ++ str "/**"
          else trimPrefixStr relPath (str "/")) ∧
      (toggleUpdate m relPath isDir oldState).2 = toggleCycle oldState ∧
      (toggleCycle oldState = FilterNone →
        ((toggleUpdate m relPath isDir oldState).1.lookup
            (toggleKey relPath isDir) = none ∧
          ∀ q, q ≠ toggleKey relPath isDir →
            (toggleUpdate m relPath isDir oldState).1.lookup q =
              m.lookup q)) ∧
      (toggleCycle oldState ≠ FilterNone →
        ((toggleUpdate m relPath isDir oldState).1.lookup
            (toggleKey relPath isDir) = some (toggleCycle oldState) ∧
          ∀ q, q ≠ toggleKey relPath isDir →
            (toggleUpdate m relPath isDir oldState).1.lookup q =
              m.lookup q)) ∧
      (isDir = true → hasSuffixStr (toggleKey relPath isDir) (str "/**") = true) := by
  have hts : trimSuffixStr relPath (str "/") = relPath := by
    simp [trimSuffixStr, h2]
  have hkey : toggleKey relPath isDir =
      (if isDir then trimPrefixStr relPath (str "/") ++ str "/**"
        else trimPrefixStr relPath (str "/")) := by
    cases isDir with
    | false => rfl
    | true =>
      simp only [toggleKey, hts, if_true]
      exact trimPrefixStr_slash_append relPath (str "/**") h1
  refine ⟨hkey, rfl, ?_, ?_, ?_⟩
  · intro hnone
    have hres : (toggleUpdate m relPath isDir oldState).1 =
        mapErase (mapInsert m (toggleKey relPath isDir) (toggleCycle oldState))
          (toggleKey relPath isDir) := by
      simp [toggleUpdate, hnone]
    rw [hres]
    exact ⟨lookup_mapErase_self _ _, fun q hq => by
      rw [lookup_mapErase_ne _ _ _ hq, lookup_mapInsert_ne _ _ _ _ hq]⟩
  · intro hne
    have hres : (toggleUpdate m relPath isDir oldState).1 =
        mapInsert m (toggleKey relPath isDir) (toggleCycle oldState) := by
      simp [toggleUpdate, hne]
    rw [hres]
    exact ⟨lookup_mapInsert_self _ _ _, fun q hq =>
      lookup_mapInsert_ne _ _ _ _ hq⟩
  · intro hdir
    rw [hkey, hdir, if_pos rfl]
    exact hasSuffixStr_append _ _

/-- Witness for the amended claim C10 at a concrete input: toggling the
directory `/docs` from Include writes key `docs/**` with state Exclude. -/
theorem toggle_overlay_key_spec_witness :
    toggleKey (str "/docs") true = str "docs" ++ str "/**" ∧
      (toggleUpdate [] (str "/docs") true FilterInclude).1.lookup
          (toggleKey (str "/docs") true) = some FilterExclude := by
  have h := toggle_overlay_key_spec [] (str "/docs") true FilterInclude
    (by decide) (by decide)
  refine ⟨by decide, ?_⟩
  have h4 := (h.2.2.2.1 (by decide)).1
  simpa using h4

theorem trimSuffixStr_append (a b : Str) : trimSuffixStr (a ++ b) b = a := by
  unfold trimSuffixStr
  rw [hasSuffixStr_append, if_pos rfl]
  simp

theorem matchesRclonePattern_special_case (pattern path : Str)
    (h0 : pattern ≠ [])
    (h1 : hasSuffixStr (trimPrefixStr pattern (str "/")) (str "/**") = true)
    (h2 : (trimPrefixStr path (str "/") ==
          trimSuffixStr (trimPrefixStr pattern (str "/")) (str "/**") ||
        hasPrefixStr (trimPrefixStr path (str "/"))
          (trimSuffixStr (trimPrefixStr pattern (str "/")) (str "/**") ++
            str "/")) = true) :
    matchesRclonePattern pattern path = true := by
  unfold matchesRclonePattern
  rw [if_neg h0]
  simp only [h1, h2, Bool.true_and, if_pos]

/-- Counterexample to claim C3 as stated: the negative part does not hold
for every directory prefix.  For the prefix `di**`, the pattern `di**/**`
does match `di**X` (the compiled regex `di(?:.*/)?.*` accepts it), so
`match(dir ++ "/**", dir ++ "X") = false` fails in general. -/
theorem globstar_bare_prefix_counterexample :
    matchesRclonePattern (str "di**" ++ str "/**") (str "di**" ++ str "X") =
      true := by decide

/-- Claim C3 amended: a pattern ending in `/**` matches the bare prefix
itself and everything under it for every directory prefix (the two positive
parts hold universally), and the negative part holds for the literal
example: `match("dir/**", "dirX") = false`.  It does not hold for
arbitrary prefixes containing wildcards (see the counterexample). -/
theorem globstar_suffix_matches_prefix :
    (∀ p : Str, matchesRclonePattern (p ++ str "/**") p = true) ∧
      (∀ p : Str, matchesRclonePattern (p ++ str "/**") (p ++ str "/x") = true) ∧
      matchesRclonePattern (str "dir/**") (str "dirX") = false := by
  refine ⟨?_, ?_, by decide⟩
  · intro p
    cases p with
    | nil => decide
    | cons c q =>
      apply matchesRclonePattern_special_case _ _ (by simp)
      · rw [trimPrefixStr_slash_append (c :: q) (str "/**") (by simp)]
        exact hasSuffixStr_append _ _
      · rw [trimPrefixStr_slash_append (c :: q) (str "/**") (by simp),
          trimSuffixStr_append]
        simp
  · intro p
    cases p with
    | nil => decide
    | cons c q =>
      apply matchesRclonePattern_special_case _ _ (by simp)
      · rw [trimPrefixStr_slash_append (c :: q) (str "/**") (by simp)]
        exact hasSuffixStr_append _ _
      · rw [trimPrefixStr_slash_append (c :: q) (str "/**") (by simp),
          trimPrefixStr_slash_append (c :: q) (str "/x") (by simp),
          trimSuffixStr_append]
        have hx : str "/x" = str "/" ++ str "x" := rfl
        have hy : trimPrefixStr (c :: q) (str "/") ++ str "/x" =
            (trimPrefixStr (c :: q) (str "/") ++ str "/") ++ str "x" := by
          rw [hx, List.append_assoc]
        rw [hy, hasPrefixStr_append]
        simp

/-- One step of the `filterMap` scan fold. -/
def overlayStep (path : Str) (best : Option (Str × FilterState))
    (e : Str × FilterState) : Option (Str × FilterState) :=
  if ruleHits e.1 path then
    match best with
    | none => some e
    | some b => if e.1.length > b.1.length then some e else best
  else best

theorem overlayBest_append (path : Str) (m : List (Str × FilterState))
    (e : Str × FilterState) :
    overlayBest path (m ++ [e]) = overlayStep path (overlayBest path m) e := by
  unfold overlayBest overlayStep
  rw [List.foldl_append]
  rfl

theorem overlayBest_spec (path : Str) (m : List (Str × FilterState)) :
    (overlayBest path m = none ∧ ∀ e ∈ m, ruleHits e.1 path = false) ∨
      (∃ b, overlayBest path m = some b ∧ b ∈ m ∧
        ruleHits b.1 path = true ∧
        ∀ e ∈ m, ruleHits e.1 path = true → e.1.length ≤ b.1.length) := by
  induction m using List.reverseRecOn with
  | nil => exact Or.inl ⟨rfl, by simp⟩
  | append_singleton m e ih =>
    rw [overlayBest_append]
    rcases ih with ⟨hnone, hall⟩ | ⟨b, hsome, hmem, hhit, hmax⟩
    · rw [hnone]
      by_cases he : ruleHits e.1 path = true
      · refine Or.inr ⟨e, ?_, by simp, he, ?_⟩
        · simp [overlayStep, he]
        · intro f hf hfhit
          rcases List.mem_append.1 hf with hf | hf
          · exact absurd hfhit (by simp [hall f hf])
          · simp at hf; subst hf; exact le_refl _
      · refine Or.inl ⟨by simp [overlayStep, he], ?_⟩
        intro f hf
        rcases List.mem_append.1 hf with hf | hf
        · exact hall f hf
        · simp at hf; subst hf; simpa using he
    · rw [hsome]
      by_cases he : ruleHits e.1 path = true
      · by_cases hlen : e.1.length > b.1.length
        · refine Or.inr ⟨e, by simp [overlayStep, he, hlen], by simp, he, ?_⟩
          intro f hf hfhit
          rcases List.mem_append.1 hf with hf | hf
          · exact le_of_lt (lt_of_le_of_lt (hmax f hf hfhit) hlen)
          · simp at hf; subst hf; exact le_refl _
        · refine Or.inr ⟨b, by simp [overlayStep, he, hlen],
            List.mem_append.2 (Or.inl hmem), hhit, ?_⟩
          intro f hf hfhit
          rcases List.mem_append.1 hf with hf | hf
          · exact hmax f hf hfhit
          · simp at hf; subst hf; omega
      · refine Or.inr ⟨b, by simp [overlayStep, he],
          List.mem_append.2 (Or.inl hmem), hhit, ?_⟩
        intro f hf hfhit
        rcases List.mem_append.1 hf with hf | hf
        · exact hmax f hf hfhit
        · simp at hf; subst hf; exact absurd hfhit (by simpa using he)

theorem fallbackFilter_eq_find (m : List (Str × FilterState)) (path : Str)
    (rules : List FilterRule) :
    fallbackFilter m path rules =
      ((rules.find? (fun r =>
          ruleHits r.Pattern path && !(m.lookup r.Pattern).isSome)).map
        FilterRule.State).getD FilterNone := by
  induction rules with
  | nil => rfl
  | cons r rest ih =>
    by_cases hp : (ruleHits r.Pattern path &&
        !(m.lookup r.Pattern).isSome) = true
    · have hp2 : ruleHits r.Pattern path = true ∧
          (m.lookup r.Pattern).isSome = false := by simpa using hp
      have hfind : List.find? (fun r => ruleHits r.Pattern path &&
          !(m.lookup r.Pattern).isSome) (r :: rest) = some r :=
        List.find?_cons_of_pos rest hp
      rw [hfind]
      simp [fallbackFilter, hp2.1, hp2.2]
    · have hfind : List.find? (fun r => ruleHits r.Pattern path &&
          !(m.lookup r.Pattern).isSome) (r :: rest) =
          List.find? (fun r => ruleHits r.Pattern path &&
            !(m.lookup r.Pattern).isSome) rest :=
        List.find?_cons_of_neg rest hp
      rw [hfind]
      by_cases hh : ruleHits r.Pattern path = true
      · have hs : (m.lookup r.Pattern).isSome = true := by
          cases hlk : m.lookup r.Pattern with
          | none => exact absurd (by simp [hh, hlk]) hp
          | some v => rfl
        simp only [fallbackFilter, hh, if_pos, hs, if_true]
        exact ih
      · simp only [fallbackFilter, hh, Bool.false_eq_true, if_false]
        exact ih

/-- Claim C2: the Overlay-aware policy returns the state of a map entry of
maximal pattern length among those that equal or match the path whenever
one exists (for every iteration order of the map); when no map entry equals
or matches the path it returns the state of the first rule in file order
that equals or matches the path and whose pattern is not a key of the map,
and `FilterNone` if none remains; in particular the map
`{"*.log": Exclude, "important.log": Include}` resolves `/important.log`
to Include in either insertion order. -/
theorem overlay_policy_longest_match_wins :
    (∀ (m : List (Str × FilterState)) (rules : List FilterRule) (path : Str),
        (∃ e ∈ m, ruleHits e.1 path = true) →
        ∃ b ∈ m, ruleHits b.1 path = true ∧
          getEffectiveFilterWithMap m rules path = b.2 ∧
          ∀ e ∈ m, ruleHits e.1 path = true → e.1.length ≤ b.1.length) ∧
      (∀ (m : List (Str × FilterState)) (rules : List FilterRule) (path : Str),
        (∀ e ∈ m, ruleHits e.1 path = false) →
        getEffectiveFilterWithMap m rules path =
          ((rules.find? (fun r =>
              ruleHits r.Pattern path && !(m.lookup r.Pattern).isSome)).map
            FilterRule.State).getD FilterNone) ∧
      (getEffectiveFilterWithMap
          [(str "*.log", FilterExclude), (str "important.log", FilterInclude)]
          [] (str "/important.log") = FilterInclude ∧
        getEffectiveFilterWithMap
          [(str "important.log", FilterInclude), (str "*.log", FilterExclude)]
          [] (str "/important.log") = FilterInclude) := by
  refine ⟨?_, ?_, by decide, by decide⟩
  · intro m rules path hex
    rcases overlayBest_spec path m with ⟨_, hall⟩ | ⟨b, hsome, hmem, hhit, hmax⟩
    · rcases hex with ⟨e, hem, heh⟩
      exact absurd heh (by simp [hall e hem])
    · refine ⟨b, hmem, hhit, ?_, hmax⟩
      simp [getEffectiveFilterWithMap, hsome]
  · intro m rules path hall
    rcases overlayBest_spec path m with ⟨hnone, _⟩ | ⟨b, _, hmem, hhit, _⟩
    · rw [getEffectiveFilterWithMap, hnone]
      exact fallbackFilter_eq_find m path rules
    · exact absurd hhit (by simp [hall b hmem])

/-- Witness for claim C2 at concrete inputs: a one-entry map matching the
path makes the first conjunct's hypothesis true, and the returned state is
that entry's state. -/
theorem overlay_policy_longest_match_wins_witness :
    ∃ b ∈ [(str "a", FilterExclude)], ruleHits b.1 (str "/a") = true ∧
      getEffectiveFilterWithMap [(str "a", FilterExclude)] [] (str "/a") =
        b.2 ∧
      ∀ e ∈ [(str "a", FilterExclude)], ruleHits e.1 (str "/a") = true →
        e.1.length ≤ b.1.length :=
  overlay_policy_longest_match_wins.1 [(str "a", FilterExclude)] []
    (str "/a") ⟨(str "a", FilterExclude), by simp, by decide⟩

/-- The line-filter selecting output lines whose pattern (the line minus
its two-character `+ `/`- ` tag) is one of the original rule patterns. -/
def isOriginalLine (rules : List FilterRule) (l : Str) : Bool :=
  rules.any (fun r => r.Pattern == l.drop 2)

/-- Specification-side description of the serializer's treatment of the
original rules (claim C5): for each original rule in original order, emit
`+ pattern` when the map holds Include for it, `- pattern` when the map
holds Exclude, and nothing when the map has no entry (or an Unset entry)
for it. -/
def specOriginalLines (m : List (Str × FilterState)) :
    List FilterRule → List Str
  | [] => []
  | r :: rest =>
    (match m.lookup r.Pattern with
      | some FilterInclude => [str "+ " ++ r.Pattern]
      | some FilterExclude => [str "- " ++ r.Pattern]
      | _ => []) ++ specOriginalLines m rest

theorem emitLines_drop_two (p : Str) (s : FilterState) :
    ∀ l ∈ emitLines p s, l.drop 2 = p := by
  cases s <;> simp [emitLines, str]

theorem insertNewRules_mem (nextPattern : Str) :
    ∀ (newR : List (Str × FilterState)) (w : List Str)
      (l : Str), l ∈ (insertNewRules nextPattern newR w).1 →
      ∃ e ∈ newR, l.drop 2 = e.1 := by
  intro newR
  induction newR with
  | nil => intro w l hl; simp [insertNewRules] at hl
  | cons e rest ih =>
    intro w l hl
    obtain ⟨p, s⟩ := e
    unfold insertNewRules at hl
    split at hl
    · simp only at hl
      rcases List.mem_append.1 hl with hl | hl
      · exact ⟨(p, s), by simp, emitLines_drop_two p s l hl⟩
      · rcases ih _ _ hl with ⟨e, he, hd⟩
        exact ⟨e, by simp [he], hd⟩
    · rcases ih _ _ hl with ⟨e, he, hd⟩
      exact ⟨e, by simp [he], hd⟩

theorem writeRemaining_mem (w : List Str) :
    ∀ (newR : List (Str × FilterState)) (l : Str),
      l ∈ writeRemaining w newR → ∃ e ∈ newR, l.drop 2 = e.1 := by
  intro newR
  induction newR with
  | nil => intro l hl; simp [writeRemaining] at hl
  | cons e rest ih =>
    intro l hl
    obtain ⟨p, s⟩ := e
    unfold writeRemaining at hl
    split at hl
    · rcases List.mem_append.1 hl with hl | hl
      · exact ⟨(p, s), by simp, emitLines_drop_two p s l hl⟩
      · rcases ih _ hl with ⟨e, he, hd⟩
        exact ⟨e, by simp [he], hd⟩
    · rcases ih _ hl with ⟨e, he, hd⟩
      exact ⟨e, by simp [he], hd⟩

theorem newRules_not_original (rules : List FilterRule)
    (m : List (Str × FilterState)) (e : Str × FilterState)
    (he : e ∈ m.filter (fun e => !(rules.any (fun r => r.Pattern == e.1)))) :
    rules.any (fun r => r.Pattern == e.1) = false := by
  have := (List.mem_filter.1 he).2
  simpa using this

theorem filter_original_emitLines (rules : List FilterRule)
    (r : FilterRule) (hr : r ∈ rules) (s : FilterState) :
    (emitLines r.Pattern s).filter (isOriginalLine rules) =
      emitLines r.Pattern s := by
  rw [List.filter_eq_self]
  intro l hl
  unfold isOriginalLine
  rw [emitLines_drop_two r.Pattern s l hl]
  exact List.any_eq_true.2 ⟨r, hr, by simp⟩

theorem filter_original_insertNewRules (rules : List FilterRule)
    (m : List (Str × FilterState)) (nextPattern : Str)
    (newR : List (Str × FilterState))
    (hnew : ∀ e ∈ newR, rules.any (fun r => r.Pattern == e.1) = false)
    (w : List Str) :
    ((insertNewRules nextPattern newR w).1).filter (isOriginalLine rules) =
      [] := by
  rw [List.filter_eq_nil_iff]
  intro l hl
  rcases insertNewRules_mem nextPattern newR w l hl with ⟨e, he, hd⟩
  unfold isOriginalLine
  rw [hd]
  simp [hnew e he]

theorem filter_original_writeRemaining (rules : List FilterRule)
    (newR : List (Str × FilterState))
    (hnew : ∀ e ∈ newR, rules.any (fun r => r.Pattern == e.1) = false)
    (w : List Str) :
    (writeRemaining w newR).filter (isOriginalLine rules) = [] := by
  rw [List.filter_eq_nil_iff]
  intro l hl
  rcases writeRemaining_mem w newR l hl with ⟨e, he, hd⟩
  unfold isOriginalLine
  rw [hd]
  simp [hnew e he]

theorem filter_original_saveLoop (rules : List FilterRule)
    (m : List (Str × FilterState)) (newR : List (Str × FilterState))
    (hnew : ∀ e ∈ newR, rules.any (fun r => r.Pattern == e.1) = false) :
    ∀ (sub : List FilterRule) (w : List Str), (∀ r ∈ sub, r ∈ rules) →
      ((saveLoop m newR sub w).1).filter (isOriginalLine rules) =
        specOriginalLines m sub := by
  intro sub
  induction sub with
  | nil => intro w _; rfl
  | cons r rest ih =>
    intro w hsub
    have hr : r ∈ rules := hsub r (by simp)
    have hcons : (saveLoop m newR (r :: rest) w).1 =
        (saveStep m r w).1 ++ (saveIns newR rest (saveStep m r w).2).1 ++
          (saveLoop m newR rest (saveIns newR rest (saveStep m r w).2).2).1 :=
      rfl
    rw [hcons]
    simp only [List.filter_append]
    have h1 : ((saveStep m r w).1).filter (isOriginalLine rules) =
        (match m.lookup r.Pattern with
          | some FilterInclude => [str "+ " ++ r.Pattern]
          | some FilterExclude => [str "- " ++ r.Pattern]
          | _ => ([] : List Str)) := by
      cases hlk : m.lookup r.Pattern with
      | none => simp [saveStep, hlk]
      | some s =>
        simp only [saveStep, hlk]
        rw [filter_original_emitLines rules r hr s]
        cases s <;> simp [emitLines]
    have h2 : ∀ w2,
        ((saveIns newR rest w2).1).filter (isOriginalLine rules) = [] := by
      intro w2
      cases rest with
      | nil => simp [saveIns]
      | cons next more =>
        exact filter_original_insertNewRules rules m next.Pattern newR hnew w2
    rw [h1, h2]
    rw [ih _ (fun q hq => hsub q (by simp [hq]))]
    simp [specOriginalLines]

/-- Claim C5: among the serializer's output lines, those whose pattern is
an original rule pattern are exactly the original rules in their original
relative order, each rule with a map entry emitted as `+ pattern` for
Include or `- pattern` for Exclude per the map's current state, and each
rule without a map entry omitted (an Unset-valued entry is likewise
omitted); all other output lines carry patterns that are not original. -/
theorem save_preserves_original_rules (rules : List FilterRule)
    (m : List (Str × FilterState)) :
    (saveFilterFile rules m).filter (isOriginalLine rules) =
      specOriginalLines m rules := by
  unfold saveFilterFile
  simp only [List.filter_append]
  have hnew : ∀ e ∈ m.filter
      (fun e => !(rules.any (fun r => r.Pattern == e.1))),
      rules.any (fun r => r.Pattern == e.1) = false :=
    fun e he => newRules_not_original rules m e he
  rw [filter_original_saveLoop rules m _ hnew rules [] (fun r hr => hr),
    filter_original_writeRemaining rules _ hnew]
  simp

/-- Counterexample to claim C7 as stated: two runs of the serializer on the
same rule list and the same Overlay mapping (the second map is a
permutation of the first, i.e. the same key-value set observed in a
different Go map iteration order) produce different line sequences, because
the relative order of inserted new rules follows the iteration order. -/
theorem save_iteration_order_matters :
    [(str "x", FilterInclude), (str "*", FilterExclude),
        (str "a/b", FilterInclude), (str "c/d", FilterInclude)].Perm
      [(str "x", FilterInclude), (str "*", FilterExclude),
        (str "c/d", FilterInclude), (str "a/b", FilterInclude)] ∧
      ([(str "x", FilterInclude), (str "*", FilterExclude),
          (str "a/b", FilterInclude),
          (str "c/d", FilterInclude)].map Prod.fst).Nodup ∧
      saveFilterFile [⟨str "x", FilterInclude⟩, ⟨str "*", FilterExclude⟩]
          [(str "x", FilterInclude), (str "*", FilterExclude),
            (str "a/b", FilterInclude), (str "c/d", FilterInclude)] ≠
        saveFilterFile [⟨str "x", FilterInclude⟩, ⟨str "*", FilterExclude⟩]
          [(str "x", FilterInclude), (str "*", FilterExclude),
            (str "c/d", FilterInclude), (str "a/b", FilterInclude)] := by
  refine ⟨?_, by decide, by decide⟩
  exact List.Perm.append_left
    [(str "x", FilterInclude), (str "*", FilterExclude)]
    (List.Perm.swap (str "c/d", FilterInclude) (str "a/b", FilterInclude) [])

theorem saveLoop_no_new (m : List (Str × FilterState)) :
    ∀ (sub : List FilterRule) (w : List Str),
      (saveLoop m [] sub w).1 = specOriginalLines m sub := by
  intro sub
  induction sub with
  | nil => intro w; rfl
  | cons r rest ih =>
    intro w
    have hcons : (saveLoop m [] (r :: rest) w).1 =
        (saveStep m r w).1 ++ (saveIns [] rest (saveStep m r w).2).1 ++
          (saveLoop m [] rest (saveIns [] rest (saveStep m r w).2).2).1 :=
      rfl
    rw [hcons]
    have hins : ∀ w2, (saveIns ([] : List (Str × FilterState)) rest w2).1 = [] := by
      intro w2
      cases rest with
      | nil => rfl
      | cons next more => rfl
    rw [hins, ih]
    have hstep : (saveStep m r w).1 =
        (match m.lookup r.Pattern with
          | some FilterInclude => [str "+ " ++ r.Pattern]
          | some FilterExclude => [str "- " ++ r.Pattern]
          | _ => ([] : List Str)) := by
      cases hlk : m.lookup r.Pattern with
      | none => simp [saveStep, hlk]
      | some s => cases s <;> simp [saveStep, hlk, emitLines]
    rw [hstep]
    simp [specOriginalLines]

theorem saveFilterFile_no_new (rules : List FilterRule)
    (m : List (Str × FilterState))
    (hkeys : ∀ e ∈ m, rules.any (fun r => r.Pattern == e.1) = true) :
    saveFilterFile rules m = specOriginalLines m rules := by
  unfold saveFilterFile
  have hempty : m.filter
      (fun e => !(rules.any (fun r => r.Pattern == e.1))) = [] := by
    rw [List.filter_eq_nil_iff]
    intro e he
    simp [hkeys e he]
  rw [hempty]
  show (saveLoop m [] rules []).1 ++
      writeRemaining (saveLoop m [] rules []).2 [] =
    specOriginalLines m rules
  rw [saveLoop_no_new]
  simp [writeRemaining]

theorem specOriginalLines_congr (m1 m2 : List (Str × FilterState))
    (h : ∀ q, m1.lookup q = m2.lookup q) :
    ∀ rules : List FilterRule,
      specOriginalLines m1 rules = specOriginalLines m2 rules := by
  intro rules
  induction rules with
  | nil => rfl
  | cons r rest ih =>
    unfold specOriginalLines
    rw [h r.Pattern, ih]

/-- Claim C7 amended: the serializer's output is a pure function of the
rule list and the Overlay mapping provided every Overlay key is an original
rule pattern (then two runs with any iteration orders of the same mapping
produce identical line sequences); with new Overlay keys present, the
relative order of inserted new rules follows the map iteration order, so
only the mapping-plus-order determines the exact sequence. -/
theorem save_deterministic_without_new_rules (rules : List FilterRule)
    (m1 m2 : List (Str × FilterState))
    (h1 : ∀ e ∈ m1, rules.any (fun r => r.Pattern == e.1) = true)
    (h2 : ∀ e ∈ m2, rules.any (fun r => r.Pattern == e.1) = true)
    (h3 : ∀ q, m1.lookup q = m2.lookup q) :
    saveFilterFile rules m1 = saveFilterFile rules m2 := by
  rw [saveFilterFile_no_new rules m1 h1, saveFilterFile_no_new rules m2 h2]
  exact specOriginalLines_congr m1 m2 h3 rules

/-- Witness for the amended claim C7 at concrete inputs: two different
association lists realising the same mapping over the original pattern
serialize identically. -/
theorem save_deterministic_without_new_rules_witness :
    saveFilterFile [⟨str "a", FilterInclude⟩] [(str "a", FilterExclude)] =
      saveFilterFile [⟨str "a", FilterInclude⟩]
        [(str "a", FilterExclude), (str "a", FilterInclude)] :=
  save_deterministic_without_new_rules [⟨str "a", FilterInclude⟩]
    [(str "a", FilterExclude)]
    [(str "a", FilterExclude), (str "a", FilterInclude)]
    (by decide) (by decide)
    (by
      intro q
      cases hq : q == str "a" <;> simp [List.lookup, hq])

theorem lookup_mem {m : List (Str × FilterState)} {q : Str} {v : FilterState}
    (h : m.lookup q = some v) : (q, v) ∈ m := by
  induction m with
  | nil => simp [List.lookup] at h
  | cons e rest ih =>
    obtain ⟨a, b⟩ := e
    by_cases hq : q = a
    · subst hq
      rw [lookup_cons_eq] at h
      cases h
      simp
    · rw [lookup_cons_ne _ _ _ _ hq] at h
      exact List.mem_cons_of_mem _ (ih h)

theorem mem_lookup_of_nodup {m : List (Str × FilterState)} {q : Str}
    {v : FilterState} (hnd : (m.map Prod.fst).Nodup) (h : (q, v) ∈ m) :
    m.lookup q = some v := by
  induction m with
  | nil => simp at h
  | cons e rest ih =>
    obtain ⟨a, b⟩ := e
    rcases List.mem_cons.1 h with he | he
    · cases he
      exact lookup_cons_eq _ _ _
    · have hq : q ≠ a := by
        intro hqa
        subst hqa
        have hk : q ∈ rest.map Prod.fst := List.mem_map.2 ⟨(q, v), he, rfl⟩
        have hnd2 : q ∉ rest.map Prod.fst := by
          simp only [List.map_cons, List.nodup_cons] at hnd
          exact hnd.1
        exact hnd2 hk
      rw [lookup_cons_ne _ _ _ _ hq]
      have hnd2 : (rest.map Prod.fst).Nodup := by
        simp only [List.map_cons, List.nodup_cons] at hnd
        exact hnd.2
      exact ih hnd2 he

theorem mapInsert_keys_mem (m : List (Str × FilterState)) (k q : Str)
    (v : FilterState) :
    q ∈ (mapInsert m k v).map Prod.fst ↔ q = k ∨ q ∈ m.map Prod.fst := by
  induction m with
  | nil => simp [mapInsert]
  | cons e rest ih =>
    obtain ⟨a, b⟩ := e
    by_cases ha : a = k
    · subst ha
      simp [mapInsert]
    · simp only [mapInsert, ha, if_false, List.map_cons, List.mem_cons, ih]
      tauto

theorem mapInsert_keys_nodup (m : List (Str × FilterState)) (k : Str)
    (v : FilterState) (hnd : (m.map Prod.fst).Nodup) :
    ((mapInsert m k v).map Prod.fst).Nodup := by
  induction m with
  | nil => simp [mapInsert]
  | cons e rest ih =>
    obtain ⟨a, b⟩ := e
    simp only [List.map_cons, List.nodup_cons] at hnd
    by_cases ha : a = k
    · subst ha
      have hm : mapInsert ((a, b) :: rest) a v = (a, v) :: rest := by
        simp [mapInsert]
      rw [hm]
      simp only [List.map_cons, List.nodup_cons]
      exact hnd
    · simp only [mapInsert, ha, if_false, List.map_cons, List.nodup_cons]
      refine ⟨?_, ih hnd.2⟩
      rw [mapInsert_keys_mem]
      rintro (rfl | hmem)
      · exact ha rfl
      · exact hnd.1 hmem

theorem rulesToMap_aux_keys_nodup (rs : List FilterRule) :
    ∀ m0 : List (Str × FilterState), ((m0.map Prod.fst).Nodup) →
      ((rs.foldl insertPair m0).map Prod.fst).Nodup := by
  induction rs with
  | nil => intro m0 h; simpa using h
  | cons r rest ih =>
    intro m0 h
    rw [List.foldl_cons]
    exact ih _ (mapInsert_keys_nodup _ _ _ h)

theorem rulesToMap_keys_nodup (rs : List FilterRule) :
    ((rulesToMap rs).map Prod.fst).Nodup :=
  rulesToMap_aux_keys_nodup rs [] (by simp)

theorem lookup_foldl_insertPair (rs : List FilterRule) :
    ∀ (m0 : List (Str × FilterState)) (q : Str),
      (rs.foldl insertPair m0).lookup q =
        match rs.reverse.find? (fun r => r.Pattern == q) with
        | some r => some r.State
        | none => m0.lookup q := by
  induction rs using List.reverseRecOn with
  | nil => intro m0 q; rfl
  | append_singleton rs r ih =>
    intro m0 q
    rw [List.foldl_append]
    simp only [List.foldl_cons, List.foldl_nil, List.reverse_append,
      List.reverse_cons, List.reverse_nil, List.nil_append,
      List.cons_append, List.find?]
    by_cases hq : r.Pattern == q
    · simp only [hq]
      show (insertPair (rs.foldl insertPair m0) r).lookup q = some r.State
      have : r.Pattern = q := by simpa using hq
      subst this
      exact lookup_mapInsert_self _ _ _
    · simp only [Bool.not_eq_true] at hq
      simp only [hq]
      show (insertPair (rs.foldl insertPair m0) r).lookup q = _
      have hne : q ≠ r.Pattern := by
        intro h; subst h; simp at hq
      unfold insertPair
      rw [lookup_mapInsert_ne _ _ _ _ hne]
      exact ih m0 q

/-- A pattern that survives the loader's `TrimSpace` untouched when it is
emitted behind a `+ `/`- ` tag: nonempty with a non-whitespace final
character. -/
def savablePattern (p : Str) : Bool :=
  match p.reverse with
  | [] => false
  | c :: _ => !isSpaceChar c

/-- The shape of every line the serializer emits: a `+ `/`- ` tag followed
by a map key, with the tag agreeing with the key's current map state. -/
def lineSpec (m : List (Str × FilterState)) (l : Str) : Prop :=
  ∃ p v, m.lookup p = some v ∧
    ((v = FilterInclude ∧ l = str "+ " ++ p) ∨
      (v = FilterExclude ∧ l = str "- " ++ p))

theorem emitLines_lineSpec (m : List (Str × FilterState)) (p : Str)
    (v : FilterState) (hlk : m.lookup p = some v) :
    ∀ l ∈ emitLines p v, lineSpec m l := by
  intro l hl
  cases v with
  | FilterNone => simp [emitLines] at hl
  | FilterInclude =>
    simp only [emitLines, List.mem_singleton] at hl
    exact ⟨p, FilterInclude, hlk, Or.inl ⟨rfl, hl⟩⟩
  | FilterExclude =>
    simp only [emitLines, List.mem_singleton] at hl
    exact ⟨p, FilterExclude, hlk, Or.inr ⟨rfl, hl⟩⟩

theorem insertNewRules_lineSpec (m : List (Str × FilterState))
    (hnd : (m.map Prod.fst).Nodup) (nextPattern : Str) :
    ∀ (newR : List (Str × FilterState)), (∀ e ∈ newR, e ∈ m) →
      ∀ (w : List Str) (l : Str),
        l ∈ (insertNewRules nextPattern newR w).1 → lineSpec m l := by
  intro newR
  induction newR with
  | nil => intro _ w l hl; simp [insertNewRules] at hl
  | cons e rest ih =>
    intro hsub w l hl
    obtain ⟨p, s⟩ := e
    have hlk : m.lookup p = some s :=
      mem_lookup_of_nodup hnd (hsub (p, s) (by simp))
    unfold insertNewRules at hl
    split at hl
    · simp only at hl
      rcases List.mem_append.1 hl with hl | hl
      · exact emitLines_lineSpec m p s hlk l hl
      · exact ih (fun f hf => hsub f (by simp [hf])) _ l hl
    · exact ih (fun f hf => hsub f (by simp [hf])) _ l hl

theorem writeRemaining_lineSpec (m : List (Str × FilterState))
    (hnd : (m.map Prod.fst).Nodup) (w : List Str) :
    ∀ (newR : List (Str × FilterState)), (∀ e ∈ newR, e ∈ m) →
      ∀ l : Str, l ∈ writeRemaining w newR → lineSpec m l := by
  intro newR
  induction newR with
  | nil => intro _ l hl; simp [writeRemaining] at hl
  | cons e rest ih =>
    intro hsub l hl
    obtain ⟨p, s⟩ := e
    have hlk : m.lookup p = some s :=
      mem_lookup_of_nodup hnd (hsub (p, s) (by simp))
    unfold writeRemaining at hl
    split at hl
    · rcases List.mem_append.1 hl with hl | hl
      · exact emitLines_lineSpec m p s hlk l hl
      · exact ih (fun f hf => hsub f (by simp [hf])) l hl
    · exact ih (fun f hf => hsub f (by simp [hf])) l hl

theorem saveLoop_lineSpec (m : List (Str × FilterState))
    (hnd : (m.map Prod.fst).Nodup) (newR : List (Str × FilterState))
    (hsub : ∀ e ∈ newR, e ∈ m) :
    ∀ (sub : List FilterRule) (w : List Str) (l : Str),
      l ∈ (saveLoop m newR sub w).1 → lineSpec m l := by
  intro sub
  induction sub with
  | nil => intro w l hl; simp [saveLoop] at hl
  | cons r rest ih =>
    intro w l hl
    have hcons : (saveLoop m newR (r :: rest) w).1 =
        (saveStep m r w).1 ++ (saveIns newR rest (saveStep m r w).2).1 ++
          (saveLoop m newR rest (saveIns newR rest (saveStep m r w).2).2).1 :=
      rfl
    rw [hcons] at hl
    rcases List.mem_append.1 hl with hl | hl
    · rcases List.mem_append.1 hl with hl | hl
      · cases hlk : m.lookup r.Pattern with
        | none => simp [saveStep, hlk] at hl
        | some s =>
          simp only [saveStep, hlk] at hl
          exact emitLines_lineSpec m r.Pattern s hlk l hl
      · cases rest with
        | nil => simp [saveIns] at hl
        | cons next more =>
          exact insertNewRules_lineSpec m hnd next.Pattern newR hsub _ l hl
    · exact ih _ l hl

theorem saveFilterFile_lineSpec (rules : List FilterRule)
    (m : List (Str × FilterState)) (hnd : (m.map Prod.fst).Nodup) :
    ∀ l ∈ saveFilterFile rules m, lineSpec m l := by
  intro l hl
  have hsub : ∀ e ∈ m.filter
      (fun e => !(rules.any (fun r => r.Pattern == e.1))), e ∈ m :=
    fun e he => (List.mem_filter.1 he).1
  unfold saveFilterFile at hl
  rcases List.mem_append.1 hl with hl | hl
  · exact saveLoop_lineSpec m hnd _ hsub rules [] l hl
  · exact writeRemaining_lineSpec m hnd _ _ hsub l hl

theorem trimSpaceStr_tagged (c : Char) (p : Str) (hc : isSpaceChar c = false)
    (hp : savablePattern p = true) :
    trimSpaceStr (c :: ' ' :: p) = c :: ' ' :: p := by
  unfold trimSpaceStr
  rw [List.dropWhile_cons_of_neg (by simp [hc])]
  rcases hrev : p.reverse with _ | ⟨d, t⟩
  · unfold savablePattern at hp
    rw [hrev] at hp
    cases hp
  · have hd : isSpaceChar d = false := by
      unfold savablePattern at hp
      rw [hrev] at hp
      simpa using hp
    have hrw : (c :: ' ' :: p).reverse = d :: (t ++ [' ', c]) := by
      simp [hrev]
    rw [hrw, List.dropWhile_cons_of_neg (by simp [hd]), ← hrw]
    simp

theorem lineRules_plus (p : Str) (hp : savablePattern p = true) :
    lineRules (str "+ " ++ p) = [⟨p, FilterInclude⟩] := by
  have heq : str "+ " ++ p = '+' :: ' ' :: p := rfl
  rw [heq]
  unfold lineRules
  rw [trimSpaceStr_tagged '+' p (by decide) hp]
  have h1 : (decide (('+' :: ' ' :: p) = []) ||
      hasPrefixStr ('+' :: ' ' :: p) (str "#")) = false := by
    simp [hasPrefixStr, str, List.isPrefixOf]
  have h2 : hasPrefixStr ('+' :: ' ' :: p) (str "+ ") = true := by
    simp [hasPrefixStr, str, List.isPrefixOf]
  have h3 : trimPrefixStr ('+' :: ' ' :: p) (str "+ ") = p := by
    unfold trimPrefixStr
    rw [h2]
    simp [str]
  simp only [h1, Bool.false_eq_true, if_false, h2, if_true, h3]

theorem lineRules_minus (p : Str) (hp : savablePattern p = true) :
    lineRules (str "- " ++ p) = [⟨p, FilterExclude⟩] := by
  have heq : str "- " ++ p = '-' :: ' ' :: p := rfl
  rw [heq]
  unfold lineRules
  rw [trimSpaceStr_tagged '-' p (by decide) hp]
  have h1 : (decide (('-' :: ' ' :: p) = []) ||
      hasPrefixStr ('-' :: ' ' :: p) (str "#")) = false := by
    simp [hasPrefixStr, str, List.isPrefixOf]
  have h2 : hasPrefixStr ('-' :: ' ' :: p) (str "+ ") = false := by
    simp [hasPrefixStr, str, List.isPrefixOf]
  have h3 : hasPrefixStr ('-' :: ' ' :: p) (str "- ") = true := by
    simp [hasPrefixStr, str, List.isPrefixOf]
  have h4 : trimPrefixStr ('-' :: ' ' :: p) (str "- ") = p := by
    unfold trimPrefixStr
    rw [h3]
    simp [str]
  simp only [h1, Bool.false_eq_true, if_false, h2, h3, if_true, h4]

theorem lineRules_of_lineSpec (m : List (Str × FilterState)) (l : Str)
    (hsave : ∀ e ∈ m, savablePattern e.1 = true) (hl : lineSpec m l) :
    ∃ p v, m.lookup p = some v ∧ lineRules l = [⟨p, v⟩] := by
  rcases hl with ⟨p, v, hlk, hcase⟩
  have hp : savablePattern p = true := hsave (p, v) (lookup_mem hlk)
  rcases hcase with ⟨hv, hline⟩ | ⟨hv, hline⟩
  · subst hv; subst hline
    exact ⟨p, FilterInclude, hlk, lineRules_plus p hp⟩
  · subst hv; subst hline
    exact ⟨p, FilterExclude, hlk, lineRules_minus p hp⟩

theorem allRules_mem_iff (lines : List Str) (r : FilterRule) :
    r ∈ allRules lines ↔ ∃ l ∈ lines, r ∈ lineRules l := by
  unfold allRules
  rw [List.mem_flatten]
  constructor
  · rintro ⟨s, hs, hr⟩
    rcases List.mem_map.1 hs with ⟨l, hl, rfl⟩
    exact ⟨l, hl, hr⟩
  · rintro ⟨l, hl, hr⟩
    exact ⟨lineRules l, List.mem_map.2 ⟨l, hl, rfl⟩, hr⟩

theorem allRules_save_hom (rules : List FilterRule)
    (m : List (Str × FilterState)) (hnd : (m.map Prod.fst).Nodup)
    (hsave : ∀ e ∈ m, savablePattern e.1 = true) :
    ∀ r ∈ allRules (saveFilterFile rules m),
      m.lookup r.Pattern = some r.State := by
  intro r hr
  rcases (allRules_mem_iff _ r).1 hr with ⟨l, hl, hrl⟩
  rcases lineRules_of_lineSpec m l hsave
      (saveFilterFile_lineSpec rules m hnd l hl) with ⟨p, v, hlk, hlr⟩
  rw [hlr] at hrl
  simp at hrl
  subst hrl
  exact hlk

theorem saveLoop_emits_original (m newR : List (Str × FilterState))
    (rule : FilterRule) (v : FilterState)
    (hlk : m.lookup rule.Pattern = some v) (hv : v ≠ FilterNone) :
    ∀ (sub : List FilterRule) (w : List Str), rule ∈ sub →
      ∃ l ∈ (saveLoop m newR sub w).1, l ∈ emitLines rule.Pattern v := by
  intro sub
  induction sub with
  | nil => intro w h; simp at h
  | cons r rest ih =>
    intro w hmem
    have hcons : (saveLoop m newR (r :: rest) w).1 =
        (saveStep m r w).1 ++ (saveIns newR rest (saveStep m r w).2).1 ++
          (saveLoop m newR rest (saveIns newR rest (saveStep m r w).2).2).1 :=
      rfl
    rcases List.mem_cons.1 hmem with rfl | hmem
    · have hstep : (saveStep m rule w).1 = emitLines rule.Pattern v := by
        simp [saveStep, hlk]
      have hne : emitLines rule.Pattern v ≠ [] := by
        cases v with
        | FilterNone => exact absurd rfl hv
        | FilterInclude => simp [emitLines]
        | FilterExclude => simp [emitLines]
      rcases List.exists_mem_of_ne_nil _ hne with ⟨l, hl⟩
      refine ⟨l, ?_, hl⟩
      rw [hcons]
      exact List.mem_append.2 (Or.inl (List.mem_append.2 (Or.inl
        (hstep ▸ hl))))
    · rcases ih _ hmem with ⟨l, hl, hle⟩
      refine ⟨l, ?_, hle⟩
      rw [hcons]
      exact List.mem_append.2 (Or.inr hl)

theorem insertNewRules_written_emitted (nextPattern : Str) :
    ∀ (newR : List (Str × FilterState)) (w : List Str) (k : Str),
      (∀ f ∈ newR, f.2 ≠ FilterNone) →
      k ∈ (insertNewRules nextPattern newR w).2 →
      k ∈ w ∨ ∃ l ∈ (insertNewRules nextPattern newR w).1,
        ∃ f ∈ newR, f.1 = k ∧ l ∈ emitLines f.1 f.2 := by
  intro newR
  induction newR with
  | nil => intro w k _ hk; simp [insertNewRules] at hk; exact Or.inl hk
  | cons e rest ih =>
    intro w k hne hk
    obtain ⟨p, s⟩ := e
    have hstep : insertNewRules nextPattern ((p, s) :: rest) w =
        if !w.contains p && shouldInsertBefore p nextPattern then
          (emitLines p s ++ (insertNewRules nextPattern rest (p :: w)).1,
            (insertNewRules nextPattern rest (p :: w)).2)
        else insertNewRules nextPattern rest w := rfl
    by_cases hcond : (!w.contains p && shouldInsertBefore p nextPattern) = true
    · rw [hstep, if_pos hcond] at hk ⊢
      rcases ih (p :: w) k (fun f hf => hne f (by simp [hf])) hk with
        hw | ⟨l, hl, f, hf, hfk, hle⟩
      · rcases List.mem_cons.1 hw with rfl | hw
        · have hs : s ≠ FilterNone := hne (k, s) (by simp)
          have hemit : emitLines k s ≠ [] := by
            cases s with
            | FilterNone => exact absurd rfl hs
            | FilterInclude => simp [emitLines]
            | FilterExclude => simp [emitLines]
          rcases List.exists_mem_of_ne_nil _ hemit with ⟨l, hl⟩
          exact Or.inr ⟨l, List.mem_append.2 (Or.inl hl),
            (k, s), by simp, rfl, hl⟩
        · exact Or.inl hw
      · exact Or.inr ⟨l, List.mem_append.2 (Or.inr hl), f,
          by simp [hf], hfk, hle⟩
    · rw [hstep, if_neg hcond] at hk ⊢
      rcases ih w k (fun f hf => hne f (by simp [hf])) hk with
        hw | ⟨l, hl, f, hf, hfk, hle⟩
      · exact Or.inl hw
      · exact Or.inr ⟨l, hl, f, by simp [hf], hfk, hle⟩

theorem saveStep_written (m : List (Str × FilterState)) (r : FilterRule)
    (w : List Str) (k : Str) (hk : k ∈ (saveStep m r w).2) :
    k ∈ w ∨ k = r.Pattern := by
  cases hlk : m.lookup r.Pattern with
  | none =>
    simp only [saveStep, hlk] at hk
    exact Or.inl hk
  | some s =>
    simp only [saveStep, hlk] at hk
    rcases List.mem_cons.1 hk with rfl | hk
    · exact Or.inr rfl
    · exact Or.inl hk

theorem saveLoop_written_emitted (m newR : List (Str × FilterState))
    (hne : ∀ f ∈ newR, f.2 ≠ FilterNone) :
    ∀ (sub : List FilterRule) (w : List Str) (k : Str),
      k ∈ (saveLoop m newR sub w).2 →
      k ∈ w ∨ (∃ rule ∈ sub, rule.Pattern = k) ∨
        ∃ l ∈ (saveLoop m newR sub w).1,
          ∃ f ∈ newR, f.1 = k ∧ l ∈ emitLines f.1 f.2 := by
  intro sub
  induction sub with
  | nil => intro w k hk; exact Or.inl hk
  | cons r rest ih =>
    intro w k hk
    have hcons1 : (saveLoop m newR (r :: rest) w).1 =
        (saveStep m r w).1 ++ (saveIns newR rest (saveStep m r w).2).1 ++
          (saveLoop m newR rest (saveIns newR rest (saveStep m r w).2).2).1 :=
      rfl
    have hk2 : k ∈
        (saveLoop m newR rest (saveIns newR rest (saveStep m r w).2).2).2 :=
      hk
    rcases ih _ k hk2 with hw | ⟨rule, hrule, hrk⟩ | ⟨l, hl, f, hf, hfk, hle⟩
    · -- k was in the written set before the tail loop ran
      cases hrest : rest with
      | nil =>
        rw [hrest] at hw
        have hks : k ∈ (saveStep m r w).2 := by
          simpa [saveIns] using hw
        rcases saveStep_written m r w k hks with hw2 | rfl
        · exact Or.inl hw2
        · exact Or.inr (Or.inl ⟨r, by simp, rfl⟩)
      | cons next more =>
        rw [hrest] at hw
        simp only [saveIns] at hw
        rcases insertNewRules_written_emitted next.Pattern newR _ k hne hw
          with hw2 | ⟨l, hl, f, hf, hfk, hle⟩
        · rcases saveStep_written m r w k hw2 with hw3 | rfl
          · exact Or.inl hw3
          · exact Or.inr (Or.inl ⟨r, by simp, rfl⟩)
        · refine Or.inr (Or.inr ⟨l, ?_, f, hf, hfk, hle⟩)
          have hcons3 : (saveLoop m newR (r :: next :: more) w).1 =
              (saveStep m r w).1 ++
                (insertNewRules next.Pattern newR (saveStep m r w).2).1 ++
                (saveLoop m newR (next :: more)
                  (insertNewRules next.Pattern newR
                    (saveStep m r w).2).2).1 := rfl
          rw [hcons3]
          exact List.mem_append.2 (Or.inl (List.mem_append.2 (Or.inr hl)))
    · exact Or.inr (Or.inl ⟨rule, by simp [hrule], hrk⟩)
    · refine Or.inr (Or.inr ⟨l, ?_, f, hf, hfk, hle⟩)
      rw [hcons1]
      exact List.mem_append.2 (Or.inr hl)

theorem writeRemaining_emits (w : List Str) :
    ∀ (newR : List (Str × FilterState)) (e : Str × FilterState),
      e ∈ newR → e.1 ∉ w → e.2 ≠ FilterNone →
      ∃ l ∈ writeRemaining w newR, l ∈ emitLines e.1 e.2 := by
  intro newR
  induction newR with
  | nil => intro e he; simp at he
  | cons f rest ih =>
    intro e he hw hv
    obtain ⟨p, s⟩ := f
    have hwr : writeRemaining w ((p, s) :: rest) =
        if !w.contains p then emitLines p s ++ writeRemaining w rest
        else writeRemaining w rest := rfl
    rcases List.mem_cons.1 he with heq | he
    · subst heq
      simp only at hw hv ⊢
      have hcontains : (w.contains p) = false := by simpa using hw
      have hemit : emitLines p s ≠ [] := by
        cases s with
        | FilterNone => exact absurd rfl hv
        | FilterInclude => simp [emitLines]
        | FilterExclude => simp [emitLines]
      rcases List.exists_mem_of_ne_nil _ hemit with ⟨l, hl⟩
      refine ⟨l, ?_, hl⟩
      rw [hwr, if_pos (by simpa using hw)]
      exact List.mem_append.2 (Or.inl hl)
    · rcases ih e he hw hv with ⟨l, hl, hle⟩
      refine ⟨l, ?_, hle⟩
      rw [hwr]
      by_cases hc : (w.contains p) = true
      · rw [if_neg (by simpa using hc)]
        exact hl
      · rw [if_pos (by simpa using hc)]
        exact List.mem_append.2 (Or.inr hl)

theorem emitLines_lineRules (q : Str) (v : FilterState) (l : Str)
    (hl : l ∈ emitLines q v) (hq : savablePattern q = true) :
    lineRules l = [⟨q, v⟩] := by
  cases v with
  | FilterNone => simp [emitLines] at hl
  | FilterInclude =>
    simp only [emitLines, List.mem_singleton] at hl
    subst hl
    exact lineRules_plus q hq
  | FilterExclude =>
    simp only [emitLines, List.mem_singleton] at hl
    subst hl
    exact lineRules_minus q hq

theorem save_covers_keys (rules : List FilterRule)
    (m : List (Str × FilterState)) (hnd : (m.map Prod.fst).Nodup)
    (hb : ∀ e ∈ m, e.2 ≠ FilterNone) (q : Str) (v : FilterState)
    (hlk : m.lookup q = some v) :
    ∃ l ∈ saveFilterFile rules m, l ∈ emitLines q v := by
  have hmem : (q, v) ∈ m := lookup_mem hlk
  have hv : v ≠ FilterNone := hb (q, v) hmem
  have hL : saveFilterFile rules m =
      (saveLoop m (m.filter
        (fun e => !(rules.any (fun r => r.Pattern == e.1)))) rules []).1 ++
      writeRemaining
        (saveLoop m (m.filter
          (fun e => !(rules.any (fun r => r.Pattern == e.1)))) rules []).2
        (m.filter (fun e => !(rules.any (fun r => r.Pattern == e.1)))) := rfl
  by_cases hq : rules.any (fun r => r.Pattern == q) = true
  · rcases List.any_eq_true.1 hq with ⟨rule, hrule, hpat⟩
    have hpat2 : rule.Pattern = q := by simpa using hpat
    have hlk2 : m.lookup rule.Pattern = some v := by rw [hpat2]; exact hlk
    rcases saveLoop_emits_original m _ rule v hlk2 hv rules [] hrule with
      ⟨l, hl, hle⟩
    refine ⟨l, ?_, by rwa [hpat2] at hle⟩
    rw [hL]
    exact List.mem_append.2 (Or.inl hl)
  · have hnewmem : (q, v) ∈ m.filter
        (fun e => !(rules.any (fun r => r.Pattern == e.1))) :=
      List.mem_filter.2 ⟨hmem, by simpa using hq⟩
    have hne : ∀ f ∈ m.filter
        (fun e => !(rules.any (fun r => r.Pattern == e.1))),
        f.2 ≠ FilterNone :=
      fun f hf => hb f (List.mem_filter.1 hf).1
    by_cases hwmem : q ∈ (saveLoop m (m.filter
        (fun e => !(rules.any (fun r => r.Pattern == e.1)))) rules []).2
    · rcases saveLoop_written_emitted m _ hne rules [] q hwmem with
        hfalse | ⟨rule, hrule, hrk⟩ | ⟨l, hl, f, hf, hfk, hle⟩
      · simp at hfalse
      · exact absurd (List.any_eq_true.2 ⟨rule, hrule, by simp [hrk]⟩) hq
      · have hfm : f ∈ m := (List.mem_filter.1 hf).1
        have hflk : m.lookup f.1 = some f.2 := by
          rcases f with ⟨fp, fs⟩
          exact mem_lookup_of_nodup hnd hfm
        rw [hfk] at hflk
        rw [hlk] at hflk
        have hfv : f.2 = v := by cases hflk; rfl
        refine ⟨l, ?_, ?_⟩
        · rw [hL]
          exact List.mem_append.2 (Or.inl hl)
        · rwa [hfk, hfv] at hle
    · rcases writeRemaining_emits _ _ (q, v) hnewmem hwmem hv with ⟨l, hl, hle⟩
      refine ⟨l, ?_, hle⟩
      rw [hL]
      exact List.mem_append.2 (Or.inr hl)

theorem roundtrip_lookup_eq (rules : List FilterRule)
    (m : List (Str × FilterState)) (hnd : (m.map Prod.fst).Nodup)
    (hb : ∀ e ∈ m, e.2 ≠ FilterNone)
    (hsave : ∀ e ∈ m, savablePattern e.1 = true) (q : Str) :
    ((loadFilterFile (some (saveFilterFile rules m))).2).lookup q =
      m.lookup q := by
  have hload : loadFilterFile (some (saveFilterFile rules m)) =
      (allRules (saveFilterFile rules m),
        (allRules (saveFilterFile rules m)).foldl insertPair []) := by
    show (saveFilterFile rules m).foldl loadLine ([], []) = _
    rw [load_foldl]
    simp
  rw [hload]
  simp only
  rw [lookup_foldl_insertPair]
  cases hfind : (allRules (saveFilterFile rules m)).reverse.find?
      (fun r => r.Pattern == q) with
  | some r =>
    simp only
    have hpred := List.find?_some hfind
    have hpat : r.Pattern = q := by simpa using hpred
    have hmem : r ∈ allRules (saveFilterFile rules m) :=
      List.mem_reverse.1 (List.mem_of_find?_eq_some hfind)
    have hhom := allRules_save_hom rules m hnd hsave r hmem
    rw [hpat] at hhom
    rw [hhom]
  | none =>
    simp only
    have hnone := List.find?_eq_none.1 hfind
    cases hm : m.lookup q with
    | none => simp [List.lookup]
    | some v =>
      exfalso
      rcases save_covers_keys rules m hnd hb q v hm with ⟨l, hl, hle⟩
      have hq : savablePattern q = true := hsave (q, v) (lookup_mem hm)
      have hlr : lineRules l = [⟨q, v⟩] := emitLines_lineRules q v l hle hq
      have hrmem : (⟨q, v⟩ : FilterRule) ∈
          allRules (saveFilterFile rules m) :=
        (allRules_mem_iff _ _).2 ⟨l, hl, by rw [hlr]; simp⟩
      exact absurd (by simp : ((⟨q, v⟩ : FilterRule).Pattern == q) = true)
        (by simpa using hnone _ (List.mem_reverse.2 hrmem))

theorem fallbackFilter_all_some (m : List (Str × FilterState)) (path : Str) :
    ∀ rules : List FilterRule,
      (∀ r ∈ rules, (m.lookup r.Pattern).isSome = true) →
      fallbackFilter m path rules = FilterNone := by
  intro rules
  induction rules with
  | nil => intro _; rfl
  | cons r rest ih =>
    intro h
    have hr : (m.lookup r.Pattern).isSome = true := h r (by simp)
    unfold fallbackFilter
    by_cases hh : ruleHits r.Pattern path = true
    · rw [if_pos hh, if_pos hr]
      exact ih fun q hq => h q (by simp [hq])
    · rw [if_neg hh]
      exact ih fun q hq => h q (by simp [hq])

theorem entry_iff_of_lookup_eq (m1 m2 : List (Str × FilterState))
    (hnd1 : (m1.map Prod.fst).Nodup) (hnd2 : (m2.map Prod.fst).Nodup)
    (heq : ∀ q, m1.lookup q = m2.lookup q) (e : Str × FilterState) :
    e ∈ m1 ↔ e ∈ m2 := by
  rcases e with ⟨p, v⟩
  constructor
  · intro h
    have h1 : m1.lookup p = some v := mem_lookup_of_nodup hnd1 h
    have h2 : m2.lookup p = some v := (heq p).symm.trans h1
    exact lookup_mem h2
  · intro h
    have h1 : m2.lookup p = some v := mem_lookup_of_nodup hnd2 h
    have h2 : m1.lookup p = some v := (heq p).trans h1
    exact lookup_mem h2

theorem load_save_components (lines : List Str) :
    loadFilterFile (some lines) =
      (allRules lines, rulesToMap (allRules lines)) := by
  show lines.foldl loadLine ([], []) = _
  rw [load_foldl]
  simp [rulesToMap]

/-- Counterexample to claim C6 as stated: with rules `[("a", Include)]` and
an empty Overlay map (the state after the user reset the rule's map entry),
the resolver still answers Include for `/a` through the rule-list fallback,
but the serializer omits the rule (no map entry), so after reloading the
resolver answers Unset for `/a`. -/
theorem roundtrip_not_preserved :
    getEffectiveFilterWithMap
        (loadFilterFile (some (saveFilterFile
          [⟨str "a", FilterInclude⟩] []))).2
        (loadFilterFile (some (saveFilterFile
          [⟨str "a", FilterInclude⟩] []))).1 (str "/a") ≠
      getEffectiveFilterWithMap [] [⟨str "a", FilterInclude⟩] (str "/a") := by
  decide

/-- Claim C6 amended: the save/reload round trip preserves the effective
filter state of a path provided (i) every original rule pattern still has a
map entry, (ii) no map entry carries the Unset state, (iii) the map's keys
are distinct (as Go map keys are), (iv) every map key is nonempty and free
of trailing whitespace (so the loader's `TrimSpace` reparses the emitted
line exactly), and (v) no two equal-length map entries matching the path
disagree in state (the longest-match tie is otherwise broken by map
iteration order, which the round trip does not preserve). -/
theorem roundtrip_preserves_resolution (rules : List FilterRule)
    (m : List (Str × FilterState))
    (ha : ∀ r ∈ rules, (m.lookup r.Pattern).isSome = true)
    (hb : ∀ e ∈ m, e.2 ≠ FilterNone)
    (hc : (m.map Prod.fst).Nodup)
    (hsave : ∀ e ∈ m, savablePattern e.1 = true)
    (path : Str)
    (hagree : ∀ e1 ∈ m, ∀ e2 ∈ m, ruleHits e1.1 path = true →
      ruleHits e2.1 path = true → e1.1.length = e2.1.length →
      e1.2 = e2.2) :
    getEffectiveFilterWithMap
        (loadFilterFile (some (saveFilterFile rules m))).2
        (loadFilterFile (some (saveFilterFile rules m))).1 path =
      getEffectiveFilterWithMap m rules path := by
  have heq : ∀ q,
      ((loadFilterFile (some (saveFilterFile rules m))).2).lookup q =
        m.lookup q :=
    roundtrip_lookup_eq rules m hc hb hsave
  have hcomp := load_save_components (saveFilterFile rules m)
  have hnd2 : (((loadFilterFile
      (some (saveFilterFile rules m))).2).map Prod.fst).Nodup := by
    rw [hcomp]
    exact rulesToMap_keys_nodup _
  have hentry : ∀ e : Str × FilterState,
      e ∈ (loadFilterFile (some (saveFilterFile rules m))).2 ↔ e ∈ m :=
    entry_iff_of_lookup_eq _ m hnd2 hc heq
  have hfb2 : fallbackFilter
      (loadFilterFile (some (saveFilterFile rules m))).2 path
      (loadFilterFile (some (saveFilterFile rules m))).1 = FilterNone := by
    apply fallbackFilter_all_some
    intro r hr
    have hrm : r ∈ allRules (saveFilterFile rules m) := by
      rw [hcomp] at hr
      exact hr
    have hhom := allRules_save_hom rules m hc hsave r hrm
    rw [heq r.Pattern, hhom]
    rfl
  have hfb1 : fallbackFilter m path rules = FilterNone :=
    fallbackFilter_all_some m path rules ha
  unfold getEffectiveFilterWithMap
  rcases overlayBest_spec path
      (loadFilterFile (some (saveFilterFile rules m))).2 with
    ⟨hnone2, hall2⟩ | ⟨b2, hsome2, hmem2, hhit2, hmax2⟩
  · rcases overlayBest_spec path m with
      ⟨hnone1, hall1⟩ | ⟨b1, hsome1, hmem1, hhit1, hmax1⟩
    · rw [hnone2, hnone1, hfb2, hfb1]
    · exact absurd hhit1 (by simp [hall2 b1 ((hentry b1).2 hmem1)])
  · rcases overlayBest_spec path m with
      ⟨hnone1, hall1⟩ | ⟨b1, hsome1, hmem1, hhit1, hmax1⟩
    · exact absurd hhit2 (by simp [hall1 b2 ((hentry b2).1 hmem2)])
    · rw [hsome2, hsome1]
      have hb2m : b2 ∈ m := (hentry b2).1 hmem2
      have hb1m2 : b1 ∈ (loadFilterFile (some (saveFilterFile rules m))).2 :=
        (hentry b1).2 hmem1
      have hlen : b2.1.length = b1.1.length :=
        le_antisymm (hmax1 b2 hb2m hhit2) (hmax2 b1 hb1m2 hhit1)
      exact hagree b2 hb2m b1 hmem1 hhit2 hhit1 hlen

/-- Witness for the amended claim C6 at concrete inputs: with an original
rule `a` (currently Exclude in the map) and a new map entry `bb`, the
round trip preserves the resolution of `/bb`. -/
theorem roundtrip_preserves_resolution_witness :
    getEffectiveFilterWithMap
        (loadFilterFile (some (saveFilterFile [⟨str "a", FilterInclude⟩]
          [(str "a", FilterExclude), (str "bb", FilterInclude)]))).2
        (loadFilterFile (some (saveFilterFile [⟨str "a", FilterInclude⟩]
          [(str "a", FilterExclude), (str "bb", FilterInclude)]))).1
        (str "/bb") =
      getEffectiveFilterWithMap
        [(str "a", FilterExclude), (str "bb", FilterInclude)]
        [⟨str "a", FilterInclude⟩] (str "/bb") :=
  roundtrip_preserves_resolution [⟨str "a", FilterInclude⟩]
    [(str "a", FilterExclude), (str "bb", FilterInclude)]
    (by decide) (by decide) (by decide) (by decide) (str "/bb") (by decide)

theorem compile_stable_aux :
    ∀ f : Nat,
      (∀ (p : Str) (f' : Nat), 2 * p.length < f → 2 * p.length < f' →
        compilePiecesF f p = compilePiecesF f' p) ∧
      (∀ (ps : List Str) (f' : Nat), 2 * (sumLen ps + ps.length) < f →
        2 * (sumLen ps + ps.length) < f' →
        compileAlternativesF f ps = compileAlternativesF f' ps) := by
  intro f
  induction f using Nat.strong_induction_on with
  | _ f ih =>
    constructor
    · intro p f' hf hf'
      obtain ⟨a, rfl⟩ : ∃ a, f = a + 1 := ⟨f - 1, by omega⟩
      obtain ⟨b, rfl⟩ : ∃ b, f' = b + 1 := ⟨f' - 1, by omega⟩
      have iha := ih a (by omega)
      rcases p with _ | ⟨c, rest⟩
      · rw [compilePiecesF.eq_2, compilePiecesF.eq_2]
      · by_cases h1 : c = '*'
        · subst h1
          rcases rest with _ | ⟨c2, rest2⟩
          · rw [compilePiecesF.eq_5 a [] (by rintro _ ⟨⟩) (by rintro _ ⟨⟩),
              compilePiecesF.eq_5 b [] (by rintro _ ⟨⟩) (by rintro _ ⟨⟩)]
            rw [iha.1 [] b (by simp only [List.length_cons, List.length_nil] at hf ⊢; omega) (by simp only [List.length_cons, List.length_nil] at hf' ⊢; omega)]
          · by_cases h2 : c2 = '*'
            · subst h2
              rcases rest2 with _ | ⟨c3, rest3⟩
              · rw [compilePiecesF.eq_4 a [] (by rintro _ ⟨⟩),
                  compilePiecesF.eq_4 b [] (by rintro _ ⟨⟩)]
                rw [iha.1 [] b (by simp only [List.length_cons, List.length_nil] at hf ⊢; omega)
                  (by simp only [List.length_cons, List.length_nil] at hf' ⊢; omega)]
              · by_cases h3 : c3 = '/'
                · subst h3
                  rw [compilePiecesF.eq_3, compilePiecesF.eq_3]
                  rw [iha.1 rest3 b (by simp only [List.length_cons, List.length_nil] at hf ⊢; omega)
                    (by simp only [List.length_cons, List.length_nil] at hf' ⊢; omega)]
                · rw [compilePiecesF.eq_4 a (c3 :: rest3)
                      (by rintro _ ⟨⟩; exact h3 rfl),
                    compilePiecesF.eq_4 b (c3 :: rest3)
                      (by rintro _ ⟨⟩; exact h3 rfl)]
                  rw [iha.1 (c3 :: rest3) b (by simp only [List.length_cons, List.length_nil] at hf ⊢; omega)
                    (by simp only [List.length_cons, List.length_nil] at hf' ⊢; omega)]
            · rw [compilePiecesF.eq_5 a (c2 :: rest2)
                  (by rintro _ ⟨⟩; exact h2 rfl)
                  (by rintro _ ⟨⟩; exact h2 rfl),
                compilePiecesF.eq_5 b (c2 :: rest2)
                  (by rintro _ ⟨⟩; exact h2 rfl)
                  (by rintro _ ⟨⟩; exact h2 rfl)]
              rw [iha.1 (c2 :: rest2) b (by simp only [List.length_cons, List.length_nil] at hf ⊢; omega)
                (by simp only [List.length_cons, List.length_nil] at hf' ⊢; omega)]
        · by_cases h2 : c = '?'
          · subst h2
            rw [compilePiecesF.eq_6, compilePiecesF.eq_6]
            rw [iha.1 rest b (by simp only [List.length_cons, List.length_nil] at hf ⊢; omega) (by simp only [List.length_cons, List.length_nil] at hf' ⊢; omega)]
          · by_cases h3 : c = '['
            · subst h3
              rw [compilePiecesF.eq_7, compilePiecesF.eq_7]
              by_cases hcond :
                  (rest.takeWhile (fun c => decide (c ≠ ']'))).length <
                    rest.length
              · rw [if_pos hcond, if_pos hcond]
                cases hpc : parseClass
                    (rest.takeWhile (fun c => decide (c ≠ ']'))) with
                | none => simp only [hpc]
                | some re =>
                  simp only [hpc]
                  rw [iha.1 _ b
                    (by simp only [List.length_drop, List.length_cons] at hf ⊢
                        omega)
                    (by simp only [List.length_drop, List.length_cons] at hf' ⊢
                        omega)]
              · rw [if_neg hcond, if_neg hcond]
                rw [iha.1 rest b (by simp only [List.length_cons, List.length_nil] at hf ⊢; omega)
                  (by simp only [List.length_cons, List.length_nil] at hf' ⊢; omega)]
            · by_cases h4 : c = '{'
              · subst h4
                rw [compilePiecesF.eq_8, compilePiecesF.eq_8]
                cases hfc : findCloseBrace rest 1 with
                | none =>
                  simp only [hfc]
                  rw [iha.1 rest b (by simp only [List.length_cons, List.length_nil] at hf ⊢; omega)
                    (by simp only [List.length_cons, List.length_nil] at hf' ⊢; omega)]
                | some k =>
                  simp only [hfc]
                  have hk := findCloseBrace_lt hfc
                  have hsplit := splitOnCharStr_sumLen ',' (rest.take k)
                  simp only [List.length_take] at hsplit
                  have hma : 2 * (sumLen (splitOnCharStr ','
                      (rest.take k)) +
                      (splitOnCharStr ',' (rest.take k)).length) < a := by
                    simp only [List.length_cons] at hf
                    omega
                  have hmb : 2 * (sumLen (splitOnCharStr ','
                      (rest.take k)) +
                      (splitOnCharStr ',' (rest.take k)).length) < b := by
                    simp only [List.length_cons] at hf'
                    omega
                  rw [iha.2 _ b hma hmb]
                  cases halt : compileAlternativesF b
                      (splitOnCharStr ',' (rest.take k)) with
                  | none => simp only [halt]
                  | some alts =>
                    simp only [halt]
                    rw [iha.1 _ b
                      (by simp only [List.length_drop, List.length_cons] at hf ⊢
                          omega)
                      (by simp only [List.length_drop, List.length_cons] at hf' ⊢
                          omega)]
              · rw [compilePiecesF.eq_9 a c rest
                    (fun _ hc _ => h1 hc) (fun _ hc _ => h1 hc)
                    (fun hc => h1 hc) (fun hc => h2 hc)
                    (fun hc => h3 hc) (fun hc => h4 hc),
                  compilePiecesF.eq_9 b c rest
                    (fun _ hc _ => h1 hc) (fun _ hc _ => h1 hc)
                    (fun hc => h1 hc) (fun hc => h2 hc)
                    (fun hc => h3 hc) (fun hc => h4 hc)]
                rw [iha.1 rest b (by simp only [List.length_cons, List.length_nil] at hf ⊢; omega)
                  (by simp only [List.length_cons, List.length_nil] at hf' ⊢; omega)]
    · intro ps f' hf hf'
      obtain ⟨a, rfl⟩ : ∃ a, f = a + 1 := ⟨f - 1, by omega⟩
      obtain ⟨b, rfl⟩ : ∃ b, f' = b + 1 := ⟨f' - 1, by omega⟩
      have iha := ih a (by omega)
      rcases ps with _ | ⟨p, ps⟩
      · rw [compileAlternativesF.eq_2, compileAlternativesF.eq_2]
      · rw [compileAlternativesF.eq_3, compileAlternativesF.eq_3]
        rw [iha.1 p b
          (by simp only [sumLen, List.map_cons, List.sum_cons,
              List.length_cons] at hf ⊢
              omega)
          (by simp only [sumLen, List.map_cons, List.sum_cons,
              List.length_cons] at hf' ⊢
              omega)]
        rw [iha.2 ps b
          (by simp only [sumLen, List.map_cons, List.sum_cons,
              List.length_cons] at hf ⊢
              omega)
          (by simp only [sumLen, List.map_cons, List.sum_cons,
              List.length_cons] at hf' ⊢
              omega)]

/-- Any fuel strictly above the measure `2 * length` gives the same result,
so the fuel case of `compilePiecesF` is never reached from
`rclonePatternToRegex`, which supplies `2 * length + 1`. -/
theorem compilePiecesF_stable (p : Str) (f : Nat) (h : 2 * p.length < f) :
    compilePiecesF f p = compilePiecesF (2 * p.length + 1) p :=
  (compile_stable_aux f).1 p (2 * p.length + 1) h (by omega)
